import Mathlib

/-!
Verification of the MT-ERBS traffic-simulation core.

The definitions below are a shallow embedding of the two source files
`gui_demo/gui_demo.py` and `benchmarking_tool.py`: cell layouts, per-cell
vehicle queues, traffic signals with server overrides, breadth-first route
planning, ETA prediction, signal preemption, and the ambulance agent's
per-tick step.  Randomness (Poisson arrival draws, Bernoulli movement
draws, ETA jitter) is passed in explicitly as oracle inputs; machine floats
are modelled by rationals.
-/

set_option maxHeartbeats 1000000
set_option linter.unusedSectionVars false

namespace MTERBS

/-- Cell kinds of the grid layout (CELL_SIGNAL / CELL_ROAD / CELL_BLOCK /
CELL_HEAVY in the source). -/
inductive Cell where
  | signal
  | road
  | block
  | heavy
deriving DecidableEq, Repr

/-- Signal phase ("GREEN" / "RED" strings in the source). -/
inductive Phase where
  | GREEN
  | RED
deriving DecidableEq, Repr

/-- Grid positions are integer pairs, as in the source. -/
abbrev Pos := Int × Int

/-- `within_grid(x, y)`: `0 <= x < GRID_W and 0 <= y < GRID_H`.  The grid
dimensions are globals in the source; here they are parameters. -/
def within_grid (W H : ℕ) (p : Pos) : Prop :=
  0 ≤ p.1 ∧ p.1 < (W : ℤ) ∧ 0 ≤ p.2 ∧ p.2 < (H : ℤ)

instance (W H : ℕ) (p : Pos) : Decidable (within_grid W H p) := by
  unfold within_grid; infer_instance

/-- `neighbors(x, y)`: the 4-neighborhood, yielded in the fixed order
`(+1,0), (-1,0), (0,+1), (0,-1)` and filtered by `within_grid`. -/
def neighbors (W H : ℕ) (p : Pos) : List Pos :=
  ([((1 : ℤ), (0 : ℤ)), (-1, 0), (0, 1), (0, -1)]).filterMap fun d =>
    if within_grid W H (p.1 + d.1, p.2 + d.2) then
      some (p.1 + d.1, p.2 + d.2)
    else none

/-- `manhattan(a, b) = abs(a[0]-b[0]) + abs(a[1]-b[1])`. -/
def manhattan (a b : Pos) : ℕ :=
  (a.1 - b.1).natAbs + (a.2 - b.2).natAbs

/-- All grid cells in row-major construction order `(x, y)`,
`0 ≤ x < W`, `0 ≤ y < H` (the iteration order of the layout dict). -/
def allCells (W H : ℕ) : List Pos :=
  (List.range W).flatMap fun (x : ℕ) =>
    (List.range H).map fun (y : ℕ) => (((x : ℕ) : ℤ), ((y : ℕ) : ℤ))

theorem mem_allCells {W H : ℕ} {p : Pos} :
    p ∈ allCells W H ↔ within_grid W H p := by
  obtain ⟨a, b⟩ := p
  show _ ↔ (0 ≤ a ∧ a < (W : ℤ) ∧ 0 ≤ b ∧ b < (H : ℤ))
  constructor
  · intro h
    obtain ⟨x, hx, hmem⟩ := List.mem_flatMap.mp h
    obtain ⟨y, hy, hxy⟩ := List.mem_map.mp hmem
    rw [List.mem_range] at hx hy
    have h1 : ((x : ℕ) : ℤ) = a := congrArg Prod.fst hxy
    have h2 : ((y : ℕ) : ℤ) = b := congrArg Prod.snd hxy
    exact ⟨by omega, by omega, by omega, by omega⟩
  · rintro ⟨h1, h2, h3, h4⟩
    refine List.mem_flatMap.mpr ⟨a.toNat, List.mem_range.mpr (by omega), ?_⟩
    refine List.mem_map.mpr ⟨b.toNat, List.mem_range.mpr (by omega), ?_⟩
    have e1 : ((a.toNat : ℕ) : ℤ) = a := by omega
    have e2 : ((b.toNat : ℕ) : ℤ) = b := by omega
    rw [e1, e2]

theorem nodup_allCells (W H : ℕ) : (allCells W H).Nodup := by
  unfold allCells
  rw [List.nodup_flatMap]
  constructor
  · intro x _
    refine List.Nodup.map ?_ (List.nodup_range H)
    intro a b h
    have h2 : ((a : ℕ) : ℤ) = ((b : ℕ) : ℤ) := congrArg Prod.snd h
    omega
  · refine List.Pairwise.imp ?_ (List.pairwise_lt_range W)
    intro x y hxy
    intro p hp hq
    simp only [List.mem_map] at hp hq
    obtain ⟨a, _, rfl⟩ := hp
    obtain ⟨b, _, h⟩ := hq
    have hfst : ((y : ℕ) : ℤ) = ((x : ℕ) : ℤ) := congrArg Prod.fst h
    omega

/-! ## GridState operations (`gui_demo.GridState`)

The queue table is modelled as a total function `Pos → ℕ`
(a `defaultdict(int)` in the source). -/

/-- `GridState.estimated_speed_at(pos)`:
`base * (1.0 / (1.0 + 0.08 * q))` with `base = 12.0`. -/
def estimated_speed_at (queues : Pos → ℕ) (pos : Pos) : ℚ :=
  12 * (1 / (1 + (8 / 100) * (queues pos : ℚ)))

/-- `GridState.drain_queue(pos, count)`: removes `min(available, count)`
vehicles from `queues[pos]`, returns the updated queue table and the actual
number removed. -/
def drain_queue (queues : Pos → ℕ) (pos : Pos) (count : ℕ) :
    (Pos → ℕ) × ℕ :=
  let available := queues pos
  let actual := min available count
  (fun q => if q = pos then max 0 (available - actual) else queues q, actual)

/-- `GridState.step_traffic_arrivals()`: Poisson-like arrivals per layout
cell (heavier at heavy generators), skipping blocked cells and cells absent
from the layout, capping each queue at 80.  The Poisson draws are supplied
as oracles `drawHeavy`, `drawBase`. -/
def step_traffic_arrivals (W H : ℕ) (layout : Pos → Option Cell)
    (drawHeavy drawBase : Pos → ℕ) (queues : Pos → ℕ) : Pos → ℕ :=
  (allCells W H).foldl
    (fun qs pos =>
      match layout pos with
      | none => qs
      | some Cell.block => qs
      | some Cell.heavy => fun q => if q = pos then min (qs pos + drawHeavy pos) 80 else qs q
      | some _ => fun q => if q = pos then min (qs pos + drawBase pos) 80 else qs q)
    queues

/-! ## Signal (`gui_demo.Signal`) -/

structure Signal where
  pos : Pos
  state : Phase
  timer : ℚ
  green_duration : ℚ
  red_duration : ℚ
  override : Bool
deriving DecidableEq, Repr

/-- `Signal.__init__`: state RED, timer 0, durations 6, override false. -/
def Signal.init (pos : Pos) : Signal :=
  { pos := pos, state := Phase.RED, timer := 0
    green_duration := 6, red_duration := 6, override := false }

/-- `Signal.step_timer(dt)`: no-op when overridden; otherwise advance the
timer and flip the phase (resetting the timer) when the current phase's
duration is reached. -/
def Signal.step_timer (s : Signal) (dt : ℚ) : Signal :=
  if s.override then s
  else
    let t := s.timer + dt
    if s.state = Phase.GREEN ∧ t ≥ s.green_duration then
      { s with state := Phase.RED, timer := 0 }
    else if s.state = Phase.RED ∧ t ≥ s.red_duration then
      { s with state := Phase.GREEN, timer := 0 }
    else { s with timer := t }

/-- `Signal.set_green()`. -/
def Signal.set_green (s : Signal) : Signal :=
  { s with state := Phase.GREEN, timer := 0, override := true }

/-- `Signal.set_red()`. -/
def Signal.set_red (s : Signal) : Signal :=
  { s with state := Phase.RED, timer := 0, override := true }

/-- `Signal.clear_override()`. -/
def Signal.clear_override (s : Signal) : Signal :=
  { s with override := false, timer := 0 }

/-! ## Association lists

The server's `signals` dict (pos → Signal) and the BFS `prev` dict are
modelled as association lists, preserving python dict insertion/iteration
order. -/

/-- First-match lookup in an association list (python dict lookup). -/
def lookupA {α β : Type} [DecidableEq α] : List (α × β) → α → Option β
  | [], _ => none
  | (k, v) :: rest, a => if k = a then some v else lookupA rest a

/-- The keys of an association list, in insertion order. -/
def keysOf {α β : Type} (l : List (α × β)) : List α := l.map Prod.fst

theorem lookupA_eq_none {α β : Type} [DecidableEq α]
    {l : List (α × β)} {a : α} : lookupA l a = none ↔ a ∉ keysOf l := by
  induction l with
  | nil => simp [lookupA, keysOf]
  | cons hd tl ih =>
    obtain ⟨k, v⟩ := hd
    simp only [lookupA, keysOf, List.map_cons, List.mem_cons]
    split
    · next h => subst h; simp
    · next h =>
      rw [ih]
      unfold keysOf
      constructor
      · intro hn hor
        cases hor with
        | inl h1 => exact h h1.symm
        | inr h2 => exact hn h2
      · exact fun hn h2 => hn (Or.inr h2)

theorem lookupA_isSome {α β : Type} [DecidableEq α]
    {l : List (α × β)} {a : α} : (lookupA l a).isSome ↔ a ∈ keysOf l := by
  cases h : lookupA l a with
  | none =>
    simp only [Option.isSome_none, Bool.false_eq_true, false_iff]
    exact lookupA_eq_none.mp h
  | some v =>
    simp only [Option.isSome_some, true_iff]
    by_contra hmem
    rw [← lookupA_eq_none] at hmem
    simp [h] at hmem

theorem lookupA_append_left {α β : Type} [DecidableEq α]
    {l : List (α × β)} {a : α} {v : β} (h : lookupA l a = some v)
    (l' : List (α × β)) : lookupA (l ++ l') a = some v := by
  induction l with
  | nil => simp [lookupA] at h
  | cons hd tl ih =>
    obtain ⟨k, w⟩ := hd
    simp only [lookupA, List.cons_append] at h ⊢
    split
    · next hk => rw [if_pos hk] at h; exact h
    · next hk => rw [if_neg hk] at h; exact ih h

theorem lookupA_append_right {α β : Type} [DecidableEq α]
    {l : List (α × β)} {a : α} (h : lookupA l a = none)
    (l' : List (α × β)) : lookupA (l ++ l') a = lookupA l' a := by
  induction l with
  | nil => simp
  | cons hd tl ih =>
    obtain ⟨k, w⟩ := hd
    simp only [lookupA, List.cons_append] at h ⊢
    split
    · next hk => rw [if_pos hk] at h; exact absurd h (by simp)
    · next hk => rw [if_neg hk] at h; exact ih h

/-! ## Server preemption (`Server.issue_preemption`) -/

/-- A preemption action, as recorded in a Decision's action list. -/
inductive Action where
  | set_green (pos : Pos)
  | set_red (pos : Pos)
deriving DecidableEq, Repr

/-- `Server.issue_preemption(ambulance_pos, corridor)`: picks the next hop
(corridor index 1, or index 0 for a length-1 corridor), sets its signal
green when present, sets every other signal within Manhattan distance 2 of
the next hop red, and returns the updated signals together with the
Decision's action list (in append order).  An empty corridor raises
`IndexError` in the source, modelled by `none`. -/
def issue_preemption (signals : List (Pos × Signal)) (corridor : List Pos) :
    Option (List (Pos × Signal) × List Action) :=
  match corridor with
  | [] => none
  | c0 :: rest =>
    let next_node := match rest with
      | [] => c0
      | c1 :: _ => c1
    let greenActs : List Action :=
      if (lookupA signals next_node).isSome then [Action.set_green next_node] else []
    let redActs : List Action :=
      signals.filterMap fun pr =>
        if pr.1 ≠ next_node ∧ manhattan pr.1 next_node ≤ 2 then
          some (Action.set_red pr.1)
        else none
    let signals' := signals.map fun pr =>
      if pr.1 = next_node then (pr.1, pr.2.set_green)
      else if manhattan pr.1 next_node ≤ 2 then (pr.1, pr.2.set_red)
      else pr
    some (signals', greenActs ++ redActs)

/-- `Server.clear_overrides_after(seconds)`: clears the override of every
currently-overridden signal once strictly more than `seconds` have elapsed
since the server's last decision. -/
def clear_overrides_after (tnow last_decision_time seconds : ℚ)
    (signals : List (Pos × Signal)) : List (Pos × Signal) :=
  signals.map fun pr =>
    if pr.2.override ∧ tnow - last_decision_time > seconds then
      (pr.1, pr.2.clear_override)
    else pr

/-! ## Benchmarking tool (`benchmarking_tool.py`) -/

/-- `TrafficSignal`: phase 0 is green (it grants outflow in `departures`),
phase 1 is red. -/
structure TrafficSignal where
  phase : ℕ
  timer : ℕ
  green_time : ℕ
  red_time : ℕ
  switches : ℕ
deriving DecidableEq, Repr

/-- `TrafficSignal.__init__`. -/
def TrafficSignal.init : TrafficSignal :=
  { phase := 0, timer := 0, green_time := 5, red_time := 5, switches := 0 }

/-- `TrafficSignal.step()`. -/
def TrafficSignal.step (s : TrafficSignal) : TrafficSignal :=
  let t := s.timer + 1
  if s.phase = 0 ∧ t ≥ s.green_time then
    { s with phase := 1, timer := 0, switches := s.switches + 1 }
  else if s.phase = 1 ∧ t ≥ s.red_time then
    { s with phase := 0, timer := 0, switches := s.switches + 1 }
  else { s with timer := t }

/-- `QUEUE_CAPACITY`. -/
def QUEUE_CAPACITY : ℕ := 30

/-- The mutable part of `TrafficNetwork` (the signal grid of side `size`
and the blockage set are fixed at construction). -/
structure TrafficNetwork where
  queues : Pos → ℕ
  spillbacks : ℕ
  throughput : ℕ
  total_delay : ℕ
  signals : Pos → TrafficSignal

/-- `TrafficNetwork.__init__`: all-zero queues and counters, fresh signals
at every node of the `size × size` grid. -/
def TrafficNetwork.init : TrafficNetwork :=
  { queues := fun _ => 0, spillbacks := 0, throughput := 0, total_delay := 0
    signals := fun _ => TrafficSignal.init }

/-- One node of `TrafficNetwork.arrivals`: add the Poisson draw to the
node's queue, then clip to QUEUE_CAPACITY and count a spillback when the
capacity is exceeded. -/
def arrivalsNode (draw : Pos → ℕ) (net : TrafficNetwork) (node : Pos) :
    TrafficNetwork :=
  let q1 := net.queues node + draw node
  if q1 > QUEUE_CAPACITY then
    { net with
      queues := fun p => if p = node then QUEUE_CAPACITY else net.queues p
      spillbacks := net.spillbacks + 1 }
  else
    { net with queues := fun p => if p = node then q1 else net.queues p }

/-- `TrafficNetwork.arrivals()`: iterate `arrivalsNode` over all signal
nodes in dict order, skipping blocked nodes.  The Poisson draws (rate
4 under stress, 2 otherwise) are supplied by the oracle `draw`. -/
def arrivals (size : ℕ) (blockages : Pos → Bool) (draw : Pos → ℕ)
    (net : TrafficNetwork) : TrafficNetwork :=
  (allCells size size).foldl
    (fun n node => if blockages node then n else arrivalsNode draw n node)
    net

/-- One node of `TrafficNetwork.departures`: ambulance nodes may release
up to 5 vehicles, otherwise a green-phase signal releases up to 2; the
queue shrinks by the outflow, throughput and total delay accumulate, and
the node's signal steps. -/
def departuresNode (ambulance_nodes : Option (List Pos))
    (net : TrafficNetwork) (node : Pos) : TrafficNetwork :=
  let isAmb := match ambulance_nodes with
    | none => false
    | some l => !l.isEmpty && decide (node ∈ l)
  let outflow :=
    if isAmb then min 5 (net.queues node)
    else min (if (net.signals node).phase = 0 then 2 else 0) (net.queues node)
  let q' := net.queues node - outflow
  { net with
    queues := fun p => if p = node then q' else net.queues p
    throughput := net.throughput + outflow
    total_delay := net.total_delay + q'
    signals := fun p => if p = node then (net.signals node).step else net.signals p }

/-- `TrafficNetwork.departures(ambulance_nodes)`: iterate over all signal
nodes in dict order, skipping blocked nodes. -/
def departures (size : ℕ) (blockages : Pos → Bool)
    (ambulance_nodes : Option (List Pos)) (net : TrafficNetwork) :
    TrafficNetwork :=
  (allCells size size).foldl
    (fun n node => if blockages node then n else departuresNode ambulance_nodes n node)
    net

/-! ## Claim C8: drain semantics -/

/-- C8: `drain_queue(pos, n)` removes exactly `min(n, queue[pos])`
vehicles, never takes the queue below 0, returns the actual number removed
(at most `n` and at most the prior queue value), leaves every other cell's
queue unchanged, and two consecutive drains of `n1` then `n2` remove
exactly `min(n1, queue) + min(n2, queue - removed1)`. -/
theorem C8_drain_queue_spec (queues : Pos → ℕ) (pos : Pos) (n1 n2 : ℕ) :
    (drain_queue queues pos n1).2 = min n1 (queues pos) ∧
    (drain_queue queues pos n1).1 pos = queues pos - min n1 (queues pos) ∧
    (drain_queue queues pos n1).2 ≤ n1 ∧
    (drain_queue queues pos n1).2 ≤ queues pos ∧
    (∀ q, q ≠ pos → (drain_queue queues pos n1).1 q = queues q) ∧
    (drain_queue queues pos n1).2 +
        (drain_queue (drain_queue queues pos n1).1 pos n2).2 =
      min n1 (queues pos) + min n2 (queues pos - min n1 (queues pos)) := by
  have hval : ∀ (qs : Pos → ℕ) (n : ℕ), (drain_queue qs pos n).2 = min (qs pos) n :=
    fun _ _ => rfl
  have hself : ∀ (qs : Pos → ℕ) (n : ℕ),
      (drain_queue qs pos n).1 pos = qs pos - min (qs pos) n := by
    intro qs n
    show (if pos = pos then max 0 (qs pos - min (qs pos) n) else qs pos) =
      qs pos - min (qs pos) n
    rw [if_pos rfl]
    omega
  have hother : ∀ (qs : Pos → ℕ) (n : ℕ) (q : Pos), q ≠ pos →
      (drain_queue qs pos n).1 q = qs q := by
    intro qs n q hq
    show (if q = pos then max 0 (qs pos - min (qs pos) n) else qs q) = qs q
    rw [if_neg hq]
  refine ⟨by simp only [hval]; omega, by simp only [hself]; omega, by simp only [hval]; omega,
    by simp only [hval]; omega, fun q hq => hother _ _ q hq, ?_⟩
  simp only [hval, hself]
  omega

/-! ## Claim C9: estimated speed -/

/-- C9: `estimated_speed_at(pos)` equals `base_speed / (1 + k·queue[pos])`
with `base_speed = 12` and `k = 0.08`, is a pure function of the current
queue value, is strictly decreasing as the queue grows, and is bounded
above by `base_speed`. -/
theorem C9_estimated_speed_spec (queues : Pos → ℕ) (pos pos2 : Pos)
    (h : queues pos < queues pos2) :
    estimated_speed_at queues pos = 12 / (1 + (8 / 100) * (queues pos : ℚ)) ∧
    estimated_speed_at queues pos2 < estimated_speed_at queues pos ∧
    estimated_speed_at queues pos ≤ 12 := by
  have denom_pos : ∀ n : ℕ, (0 : ℚ) < 1 + (8 / 100) * (n : ℚ) := by
    intro n
    positivity
  refine ⟨by rw [estimated_speed_at, mul_one_div], ?_, ?_⟩
  · rw [estimated_speed_at, estimated_speed_at, mul_one_div, mul_one_div]
    refine div_lt_div_of_pos_left (by norm_num) (denom_pos _) ?_
    have : (queues pos : ℚ) < (queues pos2 : ℚ) := by exact_mod_cast h
    nlinarith
  · rw [estimated_speed_at, mul_one_div]
    refine div_le_self (by norm_num) ?_
    have : (0 : ℚ) ≤ (queues pos : ℚ) := Nat.cast_nonneg _
    nlinarith

/-- C9 witness: a concrete strict decrease. -/
theorem C9_estimated_speed_witness :
    estimated_speed_at (fun p => if p = ((0 : ℤ), (0 : ℤ)) then 0 else 1) (1, 1) <
      estimated_speed_at (fun p => if p = ((0 : ℤ), (0 : ℤ)) then 0 else 1) (0, 0) :=
  (C9_estimated_speed_spec (fun p => if p = ((0 : ℤ), (0 : ℤ)) then 0 else 1)
    (0, 0) (1, 1) (by norm_num)).2.1

/-! ## Claim C6: signal periodicity -/

/-- A unit tick of a signal's timer (`step_timer` with the default
`dt = 1.0` used by the simulation loop). -/
def tick (s : Signal) : Signal := s.step_timer 1

/-- C6: every signal starts RED with override false; with override never
engaged, it turns GREEN after exactly `red_duration = 6` unit ticks (timer
reset to 0 on the transition), stays GREEN for the next `green_duration = 6`
ticks, returns to RED at tick 12, and cycles with period 12 forever. -/
theorem C6_signal_periodicity (pos : Pos) :
    (Signal.init pos).state = Phase.RED ∧
    (Signal.init pos).override = false ∧
    (∀ k : ℕ, k < 6 → (tick^[k] (Signal.init pos)).state = Phase.RED) ∧
    (tick^[6] (Signal.init pos)).state = Phase.GREEN ∧
    (tick^[6] (Signal.init pos)).timer = 0 ∧
    (∀ k : ℕ, 6 ≤ k → k < 12 → (tick^[k] (Signal.init pos)).state = Phase.GREEN) ∧
    (tick^[12] (Signal.init pos)).timer = 0 ∧
    tick^[12] (Signal.init pos) = Signal.init pos ∧
    (∀ n : ℕ, tick^[n + 12] (Signal.init pos) = tick^[n] (Signal.init pos)) := by
  have red_step : ∀ t : ℚ, ¬(t + 1 ≥ 6) →
      tick ⟨pos, Phase.RED, t, 6, 6, false⟩ = ⟨pos, Phase.RED, t + 1, 6, 6, false⟩ := by
    intro t ht
    simp [tick, Signal.step_timer, ht]
  have red_flip : ∀ t : ℚ, t + 1 ≥ 6 →
      tick ⟨pos, Phase.RED, t, 6, 6, false⟩ = ⟨pos, Phase.GREEN, 0, 6, 6, false⟩ := by
    intro t ht
    simp [tick, Signal.step_timer, ht]
  have green_step : ∀ t : ℚ, ¬(t + 1 ≥ 6) →
      tick ⟨pos, Phase.GREEN, t, 6, 6, false⟩ = ⟨pos, Phase.GREEN, t + 1, 6, 6, false⟩ := by
    intro t ht
    simp [tick, Signal.step_timer, ht]
  have green_flip : ∀ t : ℚ, t + 1 ≥ 6 →
      tick ⟨pos, Phase.GREEN, t, 6, 6, false⟩ = ⟨pos, Phase.RED, 0, 6, 6, false⟩ := by
    intro t ht
    simp [tick, Signal.step_timer, ht]
  have hinit : Signal.init pos = ⟨pos, Phase.RED, 0, 6, 6, false⟩ := rfl
  have key : ∀ k : ℕ, k ≤ 12 → tick^[k] (Signal.init pos) =
      if k < 6 then ⟨pos, Phase.RED, (k : ℚ), 6, 6, false⟩
      else if k < 12 then ⟨pos, Phase.GREEN, ((k : ℚ) - 6), 6, 6, false⟩
      else ⟨pos, Phase.RED, 0, 6, 6, false⟩ := by
    intro k hk
    induction k with
    | zero => simp [hinit]
    | succ n ih =>
      rw [Function.iterate_succ_apply', ih (by omega)]
      rcases Nat.lt_or_ge (n + 1) 6 with h6 | h6
      · rw [if_pos (by omega : n < 6), if_pos h6]
        rw [red_step (n : ℚ) (by rw [not_le]; exact_mod_cast h6)]
        congr 1
        push_cast
        ring
      · rcases Nat.lt_or_ge n 6 with hn6 | hn6
        · have hn5 : n = 5 := by omega
          subst hn5
          rw [if_pos (by omega : (5:ℕ) < 6), if_neg (by omega : ¬ 5 + 1 < 6),
            if_pos (by omega : 5 + 1 < 12)]
          rw [red_flip (((5 : ℕ) : ℚ)) (by push_cast; norm_num)]
          congr 1
          push_cast
          norm_num
        · rcases Nat.lt_or_ge (n + 1) 12 with h12 | h12
          · rw [if_neg (by omega : ¬ n < 6), if_pos (by omega : n < 12),
              if_neg (by omega : ¬ n + 1 < 6), if_pos h12]
            rw [green_step ((n : ℚ) - 6) (by
              rw [not_le]
              have : (n : ℚ) < 11 := by exact_mod_cast (by omega : n < 11)
              linarith)]
            congr 1
            push_cast
            ring
          · have hn11 : n = 11 := by omega
            subst hn11
            rw [if_neg (by omega : ¬ (11:ℕ) < 6), if_pos (by omega : (11:ℕ) < 12),
              if_neg (by omega : ¬ 11 + 1 < 6), if_neg (by omega : ¬ 11 + 1 < 12)]
            rw [show ((11 : ℕ) : ℚ) - 6 = 5 by norm_num]
            rw [green_flip (5 : ℚ) (by norm_num)]
  have h12 : tick^[12] (Signal.init pos) = Signal.init pos := by
    rw [key 12 le_rfl]
    norm_num [hinit]
  refine ⟨rfl, rfl, ?_, ?_, ?_, ?_, ?_, h12, ?_⟩
  · intro k hk
    rw [key k (by omega), if_pos hk]
  · rw [key 6 (by omega), if_neg (by omega), if_pos (by omega)]
  · rw [key 6 (by omega), if_neg (by omega), if_pos (by omega)]
    norm_num
  · intro k hk6 hk12
    rw [key k (by omega), if_neg (by omega), if_pos hk12]
  · rw [h12, hinit]
  · intro n
    rw [Function.iterate_add_apply, h12]

/-- C6 witness: the concrete signal at the origin is GREEN after six
ticks. -/
theorem C6_signal_periodicity_witness :
    (tick^[6] (Signal.init (0, 0))).state = Phase.GREEN :=
  (C6_signal_periodicity (0, 0)).2.2.2.1

/-! ## Claim C7: override lifecycle -/

/-- C7 (amended): `set_green`/`set_red` set the phase immediately, reset
the timer and engage the override; while overridden no amount of timer
advancement changes the signal at all; `clear_overrides_after` clears every
override once strictly more than `seconds` have elapsed since the last
decision, and it is idempotent (safe to call every tick). -/
theorem C7_override_lifecycle (sig : Signal) (dt : ℚ) (n : ℕ)
    (signals : List (Pos × Signal)) (tnow last seconds : ℚ)
    (hover : sig.override = true) (helapsed : tnow - last > seconds) :
    sig.set_green.override = true ∧ sig.set_green.state = Phase.GREEN ∧
    sig.set_green.timer = 0 ∧
    sig.set_red.override = true ∧ sig.set_red.state = Phase.RED ∧
    sig.set_red.timer = 0 ∧
    (fun s => s.step_timer dt)^[n] sig = sig ∧
    (∀ pr ∈ clear_overrides_after tnow last seconds signals,
      pr.2.override = false) ∧
    clear_overrides_after tnow last seconds
        (clear_overrides_after tnow last seconds signals) =
      clear_overrides_after tnow last seconds signals := by
  refine ⟨rfl, rfl, rfl, rfl, rfl, rfl, ?_, ?_, ?_⟩
  · induction n with
    | zero => rfl
    | succ m ih =>
      rw [Function.iterate_succ_apply', ih]
      simp [Signal.step_timer, hover]
  · intro pr hpr
    unfold clear_overrides_after at hpr
    obtain ⟨pr0, _, hpr0⟩ := List.mem_map.mp hpr
    by_cases hc : pr0.2.override = true ∧ tnow - last > seconds
    · rw [if_pos hc] at hpr0
      rw [← hpr0]
      rfl
    · rw [if_neg hc] at hpr0
      rw [← hpr0]
      rcases Bool.eq_false_or_eq_true pr0.2.override with h | h
      · exact absurd ⟨h, helapsed⟩ hc
      · exact h
  · induction signals with
    | nil => rfl
    | cons hd tl ih =>
      unfold clear_overrides_after at ih ⊢
      simp only [List.map_cons, List.map_map] at ih ⊢
      rw [ih]
      congr 1
      by_cases hc : hd.2.override = true ∧ tnow - last > seconds
      · simp only [if_pos hc]
        rw [if_neg (by simp [Signal.clear_override])]
      · simp only [if_neg hc]

/-- C7 witness: a concrete overridden signal is untouched by three timer
ticks, and a clear with elapsed time 7 > 6 clears it. -/
theorem C7_override_lifecycle_witness :
    (fun s => s.step_timer 1)^[3] ((Signal.init (0, 0)).set_green) =
      (Signal.init (0, 0)).set_green :=
  (C7_override_lifecycle ((Signal.init (0, 0)).set_green) 1 3
    [((0, 0), (Signal.init (0, 0)).set_green)] 7 0 6 rfl
    (by norm_num)).2.2.2.2.2.2.1

/-- C7 counterexample to the claim as stated: with elapsed time exactly
equal to the timeout (6 ≥ 6), `clear_overrides_after` does NOT clear the
override (the code compares strictly). -/
theorem C7_counterexample :
    (clear_overrides_after 6 0 6
        [((0, 0), (Signal.init (0, 0)).set_green)]).map
      (fun pr => pr.2.override) = [true] := by
  unfold clear_overrides_after
  rw [List.map_cons, List.map_cons]
  rw [if_neg (by
    rintro ⟨-, hgt⟩
    norm_num at hgt)]
  rfl

/-! ## Claim C2: preemption action set -/

/-- Recognizer for `set_green` actions. -/
def isGreenAct : Action → Bool
  | Action.set_green _ => true
  | Action.set_red _ => false

/-- The position of a `set_red` action. -/
def redPosOf : Action → Option Pos
  | Action.set_red p => some p
  | Action.set_green _ => none

theorem filterMap_if_fst {β : Type} (P : Pos × β → Prop) [DecidablePred P]
    (l : List (Pos × β)) :
    (l.filterMap fun pr => if P pr then some pr.1 else none) =
      (l.filter fun pr => decide (P pr)).map Prod.fst := by
  induction l with
  | nil => rfl
  | cons hd tl ih =>
    by_cases hP : P hd <;>
      simp [List.filterMap_cons, List.filter_cons, hP, ih]

/-- The action list assembled by `issue_preemption` for a given next hop:
at most one `set_green` (present exactly when the hop has a signal), and
`set_red` entries at distinct signal positions within Manhattan distance 2
of the hop and different from it. -/
theorem preemption_actions_spec (signals : List (Pos × Signal))
    (next_node : Pos) (hnodup : (keysOf signals).Nodup) :
    (((if (lookupA signals next_node).isSome then
          [Action.set_green next_node] else []) ++
        signals.filterMap fun pr =>
          if pr.1 ≠ next_node ∧ manhattan pr.1 next_node ≤ 2 then
            some (Action.set_red pr.1) else none).filter isGreenAct =
      if next_node ∈ keysOf signals then [Action.set_green next_node]
      else []) ∧
    (∀ p, Action.set_red p ∈
        ((if (lookupA signals next_node).isSome then
            [Action.set_green next_node] else []) ++
          signals.filterMap fun pr =>
            if pr.1 ≠ next_node ∧ manhattan pr.1 next_node ≤ 2 then
              some (Action.set_red pr.1) else none) →
      p ∈ keysOf signals ∧ p ≠ next_node ∧ manhattan p next_node ≤ 2) ∧
    (((if (lookupA signals next_node).isSome then
          [Action.set_green next_node] else []) ++
        signals.filterMap fun pr =>
          if pr.1 ≠ next_node ∧ manhattan pr.1 next_node ≤ 2 then
            some (Action.set_red pr.1) else none).filterMap redPosOf).Nodup := by
  have hred_shape : ∀ a ∈ signals.filterMap fun pr =>
      if pr.1 ≠ next_node ∧ manhattan pr.1 next_node ≤ 2 then
        some (Action.set_red pr.1) else none,
      ∃ q, a = Action.set_red q ∧ q ∈ keysOf signals ∧ q ≠ next_node ∧
        manhattan q next_node ≤ 2 := by
    intro a ha
    obtain ⟨pr, hpr, hpra⟩ := List.mem_filterMap.mp ha
    by_cases hc : pr.1 ≠ next_node ∧ manhattan pr.1 next_node ≤ 2
    · rw [if_pos hc] at hpra
      exact ⟨pr.1, (Option.some.inj hpra).symm,
        List.mem_map.mpr ⟨pr, hpr, rfl⟩, hc.1, hc.2⟩
    · rw [if_neg hc] at hpra
      exact absurd hpra (by simp)
  refine ⟨?_, ?_, ?_⟩
  · rw [List.filter_append]
    have hredfilter : (signals.filterMap fun pr =>
        if pr.1 ≠ next_node ∧ manhattan pr.1 next_node ≤ 2 then
          some (Action.set_red pr.1) else none).filter isGreenAct = [] := by
      rw [List.filter_eq_nil_iff]
      intro a ha
      obtain ⟨q, rfl, -, -, -⟩ := hred_shape a ha
      simp [isGreenAct]
    rw [hredfilter, List.append_nil]
    by_cases hmem : next_node ∈ keysOf signals
    · rw [if_pos hmem, if_pos (lookupA_isSome.mpr hmem)]
      rfl
    · rw [if_neg hmem,
        if_neg (by rw [lookupA_isSome]; exact hmem)]
      rfl
  · intro p hp
    rcases List.mem_append.mp hp with hg | hr
    · by_cases hmem : (lookupA signals next_node).isSome
      · rw [if_pos hmem] at hg
        simp at hg
      · rw [if_neg hmem] at hg
        simp at hg
    · obtain ⟨q, heq, hq⟩ := hred_shape _ hr
      obtain rfl : q = p := by
        cases heq
        rfl
      exact hq
  · rw [List.filterMap_append]
    have hgreen : ((if (lookupA signals next_node).isSome then
        [Action.set_green next_node] else []).filterMap redPosOf) = [] := by
      by_cases hmem : (lookupA signals next_node).isSome
      · rw [if_pos hmem]; rfl
      · rw [if_neg hmem]; rfl
    rw [hgreen, List.nil_append, List.filterMap_filterMap]
    have hcomp : (signals.filterMap fun pr =>
        Option.bind (if pr.1 ≠ next_node ∧ manhattan pr.1 next_node ≤ 2 then
          some (Action.set_red pr.1) else none) redPosOf) =
        signals.filterMap fun pr =>
          if pr.1 ≠ next_node ∧ manhattan pr.1 next_node ≤ 2 then
            some pr.1 else none := by
      apply List.filterMap_congr
      intro pr _
      by_cases hc : pr.1 ≠ next_node ∧ manhattan pr.1 next_node ≤ 2
      · rw [if_pos hc, if_pos hc]; rfl
      · rw [if_neg hc, if_neg hc]; rfl
    rw [hcomp, filterMap_if_fst]
    exact hnodup.sublist ((List.filter_sublist signals).map Prod.fst)

/-- The next-hop cell of a corridor: index 1 when the corridor has at
least two cells, index 0 otherwise. -/
def next_hop (c0 : Pos) (rest : List Pos) : Pos :=
  match rest with
  | [] => c0
  | c1 :: _ => c1

/-- C2 (amended): for a non-empty corridor, the Decision's action list
contains at most one `set_green` entry — exactly one precisely when the
next-hop cell (corridor index 1, or index 0 for a length-1 corridor) has a
signal, and then at the next hop — plus zero or more `set_red` entries,
each at a distinct signal position with Manhattan distance ≤ 2 from the
next hop and different from the next hop. -/
theorem C2_issue_preemption_spec (signals : List (Pos × Signal)) (c0 : Pos)
    (rest : List Pos) (hnodup : (keysOf signals).Nodup)
    (out : List (Pos × Signal) × List Action)
    (hout : issue_preemption signals (c0 :: rest) = some out) :
    (out.2.filter isGreenAct =
      if next_hop c0 rest ∈ keysOf signals then
        [Action.set_green (next_hop c0 rest)]
      else []) ∧
    (∀ p, Action.set_red p ∈ out.2 →
      p ∈ keysOf signals ∧ p ≠ next_hop c0 rest ∧
        manhattan p (next_hop c0 rest) ≤ 2) ∧
    (out.2.filterMap redPosOf).Nodup := by
  cases rest with
  | nil =>
    unfold issue_preemption at hout
    simp only [Option.some.injEq] at hout
    rw [← hout]
    simpa only [next_hop] using preemption_actions_spec signals c0 hnodup
  | cons c1 cs =>
    unfold issue_preemption at hout
    simp only [Option.some.injEq] at hout
    rw [← hout]
    simpa only [next_hop] using preemption_actions_spec signals c1 hnodup

/-- C2 witness: a corridor whose next hop `(1,0)` carries a signal yields
exactly one `set_green`, at `(1,0)`. -/
theorem C2_issue_preemption_witness :
    ((([Action.set_green ((1 : ℤ), (0 : ℤ))] ++ []) : List Action).filter isGreenAct =
      [Action.set_green ((1 : ℤ), (0 : ℤ))]) ∧
    True := by
  have h := C2_issue_preemption_spec
    [(((1 : ℤ), (0 : ℤ)), Signal.init (1, 0))] ((0 : ℤ), (0 : ℤ))
    [((1 : ℤ), (0 : ℤ))] (by decide)
    ([(((1 : ℤ), (0 : ℤ)), (Signal.init (1, 0)).set_green)],
      [Action.set_green ((1 : ℤ), (0 : ℤ))] ++ []) (by decide)
  refine ⟨?_, trivial⟩
  have h1 := h.1
  rw [if_pos (by decide)] at h1
  exact h1

/-- C2 counterexample to the claim as stated: when the next-hop cell has
no signal, the Decision's action list contains zero `set_green` entries
(not exactly one). -/
theorem C2_counterexample :
    issue_preemption [(((0 : ℤ), (1 : ℤ)), Signal.init (0, 1))]
        [((0 : ℤ), (0 : ℤ)), ((1 : ℤ), (0 : ℤ))] =
      some ([(((0 : ℤ), (1 : ℤ)), (Signal.init (0, 1)).set_red)],
        [Action.set_red ((0 : ℤ), (1 : ℤ))]) ∧
    ([Action.set_red ((0 : ℤ), (1 : ℤ))].filter isGreenAct).length = 0 := by
  constructor
  · decide
  · decide

/-! ## Claim C3: queue bound, spillbacks, blocked cells -/

theorem arrivalsNode_queues (draw : Pos → ℕ) (net : TrafficNetwork)
    (x p : Pos) :
    (arrivalsNode draw net x).queues p =
      if p = x then min (net.queues x + draw x) QUEUE_CAPACITY
      else net.queues p := by
  unfold arrivalsNode
  by_cases hq : net.queues x + draw x > QUEUE_CAPACITY
  · rw [if_pos hq]
    dsimp only
    by_cases hpx : p = x
    · rw [if_pos hpx, if_pos hpx]; omega
    · rw [if_neg hpx, if_neg hpx]
  · rw [if_neg hq]
    dsimp only
    by_cases hpx : p = x
    · rw [if_pos hpx, if_pos hpx]; omega
    · rw [if_neg hpx, if_neg hpx]

theorem arrivalsNode_spillbacks (draw : Pos → ℕ) (net : TrafficNetwork)
    (x : Pos) :
    (arrivalsNode draw net x).spillbacks =
      net.spillbacks +
        (if net.queues x + draw x > QUEUE_CAPACITY then 1 else 0) := by
  unfold arrivalsNode
  by_cases hq : net.queues x + draw x > QUEUE_CAPACITY
  · rw [if_pos hq, if_pos hq]
  · rw [if_neg hq, if_neg hq]
    rfl

theorem departuresNode_queues_le (amb : Option (List Pos))
    (net : TrafficNetwork) (x p : Pos) :
    (departuresNode amb net x).queues p ≤ net.queues p := by
  unfold departuresNode
  dsimp only
  by_cases hpx : p = x
  · rw [if_pos hpx, hpx]
    exact Nat.sub_le _ _
  · rw [if_neg hpx]

theorem departuresNode_queues_other (amb : Option (List Pos))
    (net : TrafficNetwork) (x p : Pos) (hpx : p ≠ x) :
    (departuresNode amb net x).queues p = net.queues p := by
  unfold departuresNode
  dsimp only
  rw [if_neg hpx]

theorem arrivals_fold_bound (blockages : Pos → Bool) (draw : Pos → ℕ) :
    ∀ (l : List Pos) (net : TrafficNetwork),
      (∀ p, net.queues p ≤ QUEUE_CAPACITY) →
      ∀ p, ((l.foldl (fun n node =>
          if blockages node then n else arrivalsNode draw n node) net).queues p ≤
        QUEUE_CAPACITY) := by
  intro l
  induction l with
  | nil => intro net h p; exact h p
  | cons x xs ih =>
    intro net h p
    rw [List.foldl_cons]
    apply ih
    intro q
    by_cases hb : blockages x
    · rw [if_pos hb]; exact h q
    · rw [if_neg hb, arrivalsNode_queues]
      by_cases hqx : q = x
      · rw [if_pos hqx]; omega
      · rw [if_neg hqx]; exact h q

theorem arrivals_fold_untouched (blockages : Pos → Bool) (draw : Pos → ℕ) :
    ∀ (l : List Pos) (net : TrafficNetwork) (p : Pos),
      blockages p = true →
      ((l.foldl (fun n node =>
          if blockages node then n else arrivalsNode draw n node) net).queues p =
        net.queues p) := by
  intro l
  induction l with
  | nil => intro net p _; rfl
  | cons x xs ih =>
    intro net p hp
    rw [List.foldl_cons, ih _ p hp]
    by_cases hb : blockages x
    · rw [if_pos hb]
    · rw [if_neg hb, arrivalsNode_queues]
      have hxp : p ≠ x := fun h => by rw [h] at hp; rw [hp] at hb; exact hb rfl
      rw [if_neg hxp]

theorem arrivals_fold_spill_mono (blockages : Pos → Bool) (draw : Pos → ℕ) :
    ∀ (l : List Pos) (net : TrafficNetwork),
      net.spillbacks ≤ (l.foldl (fun n node =>
        if blockages node then n else arrivalsNode draw n node) net).spillbacks := by
  intro l
  induction l with
  | nil => intro net; exact le_rfl
  | cons x xs ih =>
    intro net
    rw [List.foldl_cons]
    refine le_trans ?_ (ih _)
    by_cases hb : blockages x
    · rw [if_pos hb]
    · rw [if_neg hb, arrivalsNode_spillbacks]
      omega

theorem arrivals_fold_spill_strict (blockages : Pos → Bool) (draw : Pos → ℕ) :
    ∀ (l : List Pos) (net : TrafficNetwork) (node : Pos), l.Nodup →
      node ∈ l → blockages node = false →
      net.queues node + draw node > QUEUE_CAPACITY →
      net.spillbacks < (l.foldl (fun n node =>
        if blockages node then n else arrivalsNode draw n node) net).spillbacks := by
  intro l
  induction l with
  | nil => intro net node _ h; exact absurd h (List.not_mem_nil node)
  | cons x xs ih =>
    intro net node hnodup hmem hblock hover
    rw [List.foldl_cons]
    rcases List.mem_cons.mp hmem with rfl | hmem'
    · rw [if_neg (by rw [hblock]; exact Bool.false_ne_true)]
      refine lt_of_lt_of_le ?_ (arrivals_fold_spill_mono blockages draw xs _)
      rw [arrivalsNode_spillbacks, if_pos hover]
      omega
    · have hxnode : x ≠ node := by
        rintro rfl
        exact (List.nodup_cons.mp hnodup).1 hmem'
      have hqpres : ∀ net1 : TrafficNetwork,
          (if blockages x then net1 else arrivalsNode draw net1 x).queues node =
            net1.queues node := by
        intro net1
        by_cases hb : blockages x
        · rw [if_pos hb]
        · rw [if_neg hb, arrivalsNode_queues, if_neg (Ne.symm hxnode)]
      have hspill : net.spillbacks ≤
          (if blockages x then net else arrivalsNode draw net x).spillbacks := by
        by_cases hb : blockages x
        · rw [if_pos hb]
        · rw [if_neg hb, arrivalsNode_spillbacks]
          omega
      refine lt_of_le_of_lt hspill ?_
      refine ih _ node (List.nodup_cons.mp hnodup).2 hmem' hblock ?_
      rw [hqpres net]
      exact hover

theorem departures_fold_le (blockages : Pos → Bool)
    (amb : Option (List Pos)) :
    ∀ (l : List Pos) (net : TrafficNetwork) (p : Pos),
      ((l.foldl (fun n node =>
          if blockages node then n else departuresNode amb n node) net).queues p ≤
        net.queues p) := by
  intro l
  induction l with
  | nil => intro net p; exact le_rfl
  | cons x xs ih =>
    intro net p
    rw [List.foldl_cons]
    refine le_trans (ih _ p) ?_
    by_cases hb : blockages x
    · rw [if_pos hb]
    · rw [if_neg hb]
      exact departuresNode_queues_le amb net x p

theorem departures_fold_untouched (blockages : Pos → Bool)
    (amb : Option (List Pos)) :
    ∀ (l : List Pos) (net : TrafficNetwork) (p : Pos), blockages p = true →
      ((l.foldl (fun n node =>
          if blockages node then n else departuresNode amb n node) net).queues p =
        net.queues p) := by
  intro l
  induction l with
  | nil => intro net p _; rfl
  | cons x xs ih =>
    intro net p hp
    rw [List.foldl_cons, ih _ p hp]
    by_cases hb : blockages x
    · rw [if_pos hb]
    · rw [if_neg hb]
      have hxp : p ≠ x := fun h => by rw [h] at hp; rw [hp] at hb; exact hb rfl
      exact departuresNode_queues_other amb net x p hxp

theorem gui_arrivals_step_bound (layout : Pos → Option Cell)
    (dh db : Pos → ℕ) (qs : Pos → ℕ) (x q : Pos) (h : ∀ p, qs p ≤ 80) :
    ((match layout x with
      | none => qs
      | some Cell.block => qs
      | some Cell.heavy => fun q0 => if q0 = x then min (qs x + dh x) 80 else qs q0
      | some _ => fun q0 => if q0 = x then min (qs x + db x) 80 else qs q0) q) ≤ 80 := by
  rcases layout x with - | c
  · exact h q
  · cases c <;>
      first
      | exact h q
      | (by_cases hqx : q = x
         · rw [hqx]
           dsimp only
           rw [if_pos rfl]
           omega
         · dsimp only
           rw [if_neg hqx]
           exact h q)

theorem gui_arrivals_step_blocked (layout : Pos → Option Cell)
    (dh db : Pos → ℕ) (qs : Pos → ℕ) (x q : Pos)
    (hq : layout q = some Cell.block) :
    ((match layout x with
      | none => qs
      | some Cell.block => qs
      | some Cell.heavy => fun q0 => if q0 = x then min (qs x + dh x) 80 else qs q0
      | some _ => fun q0 => if q0 = x then min (qs x + db x) 80 else qs q0) q) = qs q := by
  have hqx : ∀ c : Cell, layout x = some c → c ≠ Cell.block → q ≠ x := by
    intro c hc hcb hqeq
    rw [hqeq, hc] at hq
    exact hcb (Option.some.inj hq)
  rcases hlx : layout x with - | c
  · rfl
  · cases c
    · dsimp only
      rw [if_neg (hqx _ hlx (by simp))]
    · dsimp only
      rw [if_neg (hqx _ hlx (by simp))]
    · rfl
    · dsimp only
      rw [if_neg (hqx _ hlx (by simp))]

theorem gui_arrivals_fold_bound (layout : Pos → Option Cell)
    (dh db : Pos → ℕ) :
    ∀ (l : List Pos) (qs : Pos → ℕ),
      (∀ p, qs p ≤ 80) →
      ∀ p, (l.foldl (fun qs0 pos =>
        match layout pos with
        | none => qs0
        | some Cell.block => qs0
        | some Cell.heavy => fun q => if q = pos then min (qs0 pos + dh pos) 80 else qs0 q
        | some _ => fun q => if q = pos then min (qs0 pos + db pos) 80 else qs0 q) qs) p ≤ 80 := by
  intro l
  induction l with
  | nil => intro qs h p; exact h p
  | cons x xs ih =>
    intro qs h p
    rw [List.foldl_cons]
    exact ih _ (fun q => gui_arrivals_step_bound layout dh db qs x q h) p

theorem gui_arrivals_fold_blocked (layout : Pos → Option Cell)
    (dh db : Pos → ℕ) :
    ∀ (l : List Pos) (qs : Pos → ℕ) (p : Pos), layout p = some Cell.block →
      (l.foldl (fun qs0 pos =>
        match layout pos with
        | none => qs0
        | some Cell.block => qs0
        | some Cell.heavy => fun q => if q = pos then min (qs0 pos + dh pos) 80 else qs0 q
        | some _ => fun q => if q = pos then min (qs0 pos + db pos) 80 else qs0 q) qs) p = qs p := by
  intro l
  induction l with
  | nil => intro qs p _; rfl
  | cons x xs ih =>
    intro qs p hp
    rw [List.foldl_cons, ih _ p hp]
    exact gui_arrivals_step_blocked layout dh db qs x p hp

/-- C3: queues always stay within `0 ≤ queue ≤ CAPACITY` (arrivals clip at
QUEUE_CAPACITY = 30, departures only drain); a tick in which some
non-blocked node's arrival would exceed capacity strictly increases the
spillback counter; blocked cells receive no arrivals (in either simulator)
and their queues are never touched, so a blocked queue stays at 0.  The
GUI grid's arrivals are capped at 80. -/
theorem C3_queue_invariant (size : ℕ) (blockages : Pos → Bool)
    (draw : Pos → ℕ) (net : TrafficNetwork) (amb : Option (List Pos))
    (W H : ℕ) (layout : Pos → Option Cell) (dh db : Pos → ℕ)
    (gq : Pos → ℕ)
    (hbound : ∀ p, net.queues p ≤ QUEUE_CAPACITY)
    (hgbound : ∀ p, gq p ≤ 80) :
    (∀ p, (arrivals size blockages draw net).queues p ≤ QUEUE_CAPACITY) ∧
    (∀ p, (departures size blockages amb
        (arrivals size blockages draw net)).queues p ≤ QUEUE_CAPACITY) ∧
    (∀ p, blockages p = true →
      (arrivals size blockages draw net).queues p = net.queues p) ∧
    (∀ p, blockages p = true →
      (departures size blockages amb net).queues p = net.queues p) ∧
    ((∃ node ∈ allCells size size, blockages node = false ∧
        net.queues node + draw node > QUEUE_CAPACITY) →
      net.spillbacks < (arrivals size blockages draw net).spillbacks) ∧
    (∀ p, step_traffic_arrivals W H layout dh db gq p ≤ 80) ∧
    (∀ p, layout p = some Cell.block →
      step_traffic_arrivals W H layout dh db gq p = gq p) := by
  refine ⟨?_, ?_, ?_, ?_, ?_, ?_, ?_⟩
  · exact arrivals_fold_bound blockages draw _ net hbound
  · exact fun p => (departures_fold_le blockages amb _ _ p).trans
      (arrivals_fold_bound blockages draw _ net hbound p)
  · exact fun p hp => arrivals_fold_untouched blockages draw _ net p hp
  · exact fun p hp => departures_fold_untouched blockages amb _ net p hp
  · rintro ⟨node, hmem, hblock, hover⟩
    exact arrivals_fold_spill_strict blockages draw _ net node
      (nodup_allCells size size) hmem hblock hover
  · exact gui_arrivals_fold_bound layout dh db _ gq hgbound
  · exact fun p hp => gui_arrivals_fold_blocked layout dh db _ gq p hp

/-- C3 witness: an arrival of 31 vehicles at an empty node of the fresh
5×5 network strictly increases the spillback counter. -/
theorem C3_queue_invariant_witness :
    TrafficNetwork.init.spillbacks <
      (arrivals 5 (fun _ => false) (fun _ => 31) TrafficNetwork.init).spillbacks :=
  (C3_queue_invariant 5 (fun _ => false) (fun _ => 31) TrafficNetwork.init
    none 12 8 (fun _ => some Cell.road) (fun _ => 0) (fun _ => 0)
    (fun _ => 0) (fun _ => by simp [TrafficNetwork.init, QUEUE_CAPACITY])
    (fun _ => by norm_num)).2.2.2.2.1
    ⟨((0 : ℤ), (0 : ℤ)), by decide, rfl, by simp [TrafficNetwork.init, QUEUE_CAPACITY]⟩

/-! ## Breadth-first route planning (`Server.compute_route`)

The BFS is embedded generically over a successor list `nbrs` and a
`blocked` predicate, then instantiated to the grid.  The loop is written
with explicit fuel (the loop of the source runs until the queue empties or
the goal is popped; the correctness proofs show the fuel chosen by
`compute_route` never runs out). -/

section GenBFS

variable {α : Type} [DecidableEq α]

/-- The inner `for nb in neighbors(*cur)` loop of `compute_route`: skip
neighbors already in `prev` and blocked neighbors, record the parent of and
enqueue the rest, in order. -/
def bfsExpand (blocked : α → Bool) (cur : α) :
    List α → List (α × Option α) → List α → List (α × Option α) × List α
  | [], prev, queue => (prev, queue)
  | nb :: rest, prev, queue =>
    if (lookupA prev nb).isSome then bfsExpand blocked cur rest prev queue
    else if blocked nb then bfsExpand blocked cur rest prev queue
    else bfsExpand blocked cur rest (prev ++ [(nb, some cur)]) (queue ++ [nb])

/-- The `while queue:` loop of `compute_route`: pop from the left, break
when the goal is popped, otherwise expand the popped cell's neighbors. -/
def bfsLoop (nbrs : α → List α) (blocked : α → Bool) (goal : α) :
    ℕ → List (α × Option α) → List α → List (α × Option α)
  | _, prev, [] => prev
  | 0, prev, _ :: _ => prev
  | fuel + 1, prev, cur :: rest =>
    if cur = goal then prev
    else
      let s := bfsExpand blocked cur (nbrs cur) prev rest
      bfsLoop nbrs blocked goal fuel s.1 s.2

/-- The backtracking loop of `compute_route`: follow parents from the goal
until the root (`prev[cur] is None`).  A missing key (impossible for the
`prev` maps built by the loop) ends the walk. -/
def backtrack (prev : List (α × Option α)) : ℕ → α → List α
  | 0, cur => [cur]
  | fuel + 1, cur =>
    match lookupA prev cur with
    | some (some p) => cur :: backtrack prev fuel p
    | _ => [cur]

/-- A traversable move of the search: `q` is yielded by `neighbors` of `p`
and is not a blocked cell. -/
def Edge (nbrs : α → List α) (blocked : α → Bool) (p q : α) : Prop :=
  q ∈ nbrs p ∧ blocked q = false

/-- `Reach nbrs blocked s t n`: `t` is reachable from `s` in exactly `n`
traversable moves. -/
inductive Reach (nbrs : α → List α) (blocked : α → Bool) (s : α) :
    α → ℕ → Prop where
  | refl : Reach nbrs blocked s s 0
  | step {p q n} : Reach nbrs blocked s p n → Edge nbrs blocked p q →
      Reach nbrs blocked s q (n + 1)

/-- Reachability by some number of traversable moves. -/
def Reachable (nbrs : α → List α) (blocked : α → Bool) (s t : α) : Prop :=
  ∃ n, Reach nbrs blocked s t n

/-- `n` is the graph distance from `s` to `t`. -/
def IsDist (nbrs : α → List α) (blocked : α → Bool) (s t : α) (n : ℕ) :
    Prop :=
  Reach nbrs blocked s t n ∧ ∀ m, Reach nbrs blocked s t m → n ≤ m

/-- The parent chain recorded in `prev` from a cell down to the root, as
the list of cells visited (cell first, root last). -/
inductive Chain (prev : List (α × Option α)) : α → List α → Prop where
  | base {p} : lookupA prev p = some none → Chain prev p [p]
  | step {p q l} : lookupA prev p = some (some q) → Chain prev q l →
      Chain prev p (p :: l)

theorem keysOf_append {β : Type} (l l' : List (α × β)) :
    keysOf (l ++ l') = keysOf l ++ keysOf l' := List.map_append _ l l'

theorem lookupA_append_none {β : Type} {l l' : List (α × β)} {a : α} :
    lookupA (l ++ l') a = none ↔ lookupA l a = none ∧ lookupA l' a = none := by
  constructor
  · intro h
    rcases hl : lookupA l a with - | v
    · exact ⟨rfl, by rw [lookupA_append_right hl] at h; exact h⟩
    · rw [lookupA_append_left hl] at h; cases h
  · rintro ⟨h1, h2⟩
    rw [lookupA_append_right h1]
    exact h2

theorem lookupA_singleton {β : Type} (a c : α) (v : β) :
    lookupA [(a, v)] c = if a = c then some v else none := rfl

theorem isSome_eq_false_iff {β : Type} {o : Option β} :
    o.isSome = false ↔ o = none := by
  cases o <;> simp

theorem mem_keysOf_append_left {β : Type} {l : List (α × β)} {a : α}
    (h : a ∈ keysOf l) (l' : List (α × β)) : a ∈ keysOf (l ++ l') := by
  rw [keysOf_append]
  exact List.mem_append_left _ h

theorem reach_trans {nbrs : α → List α} {blocked : α → Bool}
    {s p q : α} {n m : ℕ} (h1 : Reach nbrs blocked s p n)
    (h2 : Reach nbrs blocked p q m) : Reach nbrs blocked s q (n + m) := by
  induction h2 with
  | refl => exact h1
  | step hr he ih => exact Reach.step ih he

theorem reach_zero_iff {nbrs : α → List α} {blocked : α → Bool}
    {s t : α} : Reach nbrs blocked s t 0 ↔ t = s := by
  constructor
  · intro h
    cases h
    rfl
  · rintro rfl
    exact Reach.refl

theorem reachable_isDist {nbrs : α → List α} {blocked : α → Bool}
    {s t : α} (h : Reachable nbrs blocked s t) :
    ∃ n, IsDist nbrs blocked s t n := by
  obtain ⟨n, hn⟩ := h
  have hex : ∃ m, Reach nbrs blocked s t m := ⟨n, hn⟩
  classical
  exact ⟨Nat.find hex, Nat.find_spec hex, fun m hm => Nat.find_min' hex hm⟩

theorem isDist_unique {nbrs : α → List α} {blocked : α → Bool}
    {s t : α} {n m : ℕ} (h1 : IsDist nbrs blocked s t n)
    (h2 : IsDist nbrs blocked s t m) : n = m :=
  le_antisymm (h1.2 m h2.1) (h2.2 n h1.1)

theorem chain_unique {prev : List (α × Option α)} {p : α} {l1 l2 : List α}
    (h1 : Chain prev p l1) (h2 : Chain prev p l2) : l1 = l2 := by
  induction h1 generalizing l2 with
  | base hp =>
    cases h2 with
    | base hq => rfl
    | step hq hc => rw [hp] at hq; simp at hq
  | step hp hc ih =>
    cases h2 with
    | base hq => rw [hp] at hq; simp at hq
    | step hq hc2 =>
      rw [hp] at hq
      obtain rfl := Option.some.inj (Option.some.inj hq)
      rw [ih hc2]

theorem chain_mono {prev ext : List (α × Option α)} {p : α} {l : List α}
    (h : Chain prev p l) : Chain (prev ++ ext) p l := by
  induction h with
  | base hp => exact Chain.base (lookupA_append_left hp ext)
  | step hp hc ih => exact Chain.step (lookupA_append_left hp ext) ih

theorem bfsExpand_cons (blocked : α → Bool) (cur nb : α) (rest : List α)
    (prev : List (α × Option α)) (queue : List α) :
    bfsExpand blocked cur (nb :: rest) prev queue =
      if (lookupA prev nb).isSome then bfsExpand blocked cur rest prev queue
      else if blocked nb then bfsExpand blocked cur rest prev queue
      else bfsExpand blocked cur rest (prev ++ [(nb, some cur)]) (queue ++ [nb]) :=
  rfl

/-- What one neighbor expansion does: it appends some fresh, non-blocked,
previously undiscovered neighbors (`news`) to `prev` (with parent `cur`)
and to the queue, and afterwards every non-blocked neighbor is
discovered. -/
theorem bfsExpand_spec (blocked : α → Bool) (cur : α) :
    ∀ (nbs : List α) (prev : List (α × Option α)) (queue : List α),
    ∃ news : List α,
      (bfsExpand blocked cur nbs prev queue).1 =
        prev ++ news.map (fun nb => (nb, some cur)) ∧
      (bfsExpand blocked cur nbs prev queue).2 = queue ++ news ∧
      news.Nodup ∧
      (∀ nb ∈ news, nb ∈ nbs ∧ blocked nb = false ∧ lookupA prev nb = none) ∧
      (∀ nb ∈ nbs, blocked nb = false →
        nb ∈ keysOf (bfsExpand blocked cur nbs prev queue).1) := by
  intro nbs
  induction nbs with
  | nil =>
    intro prev queue
    exact ⟨[], by simp [bfsExpand], by simp [bfsExpand], List.nodup_nil,
      fun nb h => absurd h (List.not_mem_nil nb), fun nb h => absurd h (List.not_mem_nil nb)⟩
  | cons nb rest ih =>
    intro prev queue
    by_cases hs : (lookupA prev nb).isSome
    · obtain ⟨news, h1, h2, h3, h4, h5⟩ := ih prev queue
      have heq : bfsExpand blocked cur (nb :: rest) prev queue =
          bfsExpand blocked cur rest prev queue := by
        rw [bfsExpand_cons, if_pos hs]
      refine ⟨news, heq ▸ h1, heq ▸ h2, h3,
        fun x hx => ⟨List.mem_cons_of_mem nb (h4 x hx).1, (h4 x hx).2.1, (h4 x hx).2.2⟩,
        ?_⟩
      intro x hx hbx
      rcases List.mem_cons.mp hx with rfl | hx'
      · rw [heq, h1]
        exact mem_keysOf_append_left (lookupA_isSome.mp hs) _
      · rw [heq]
        exact h5 x hx' hbx
    · by_cases hb : blocked nb
      · obtain ⟨news, h1, h2, h3, h4, h5⟩ := ih prev queue
        have heq : bfsExpand blocked cur (nb :: rest) prev queue =
            bfsExpand blocked cur rest prev queue := by
          rw [bfsExpand_cons, if_neg hs, if_pos hb]
        refine ⟨news, heq ▸ h1, heq ▸ h2, h3,
          fun x hx => ⟨List.mem_cons_of_mem nb (h4 x hx).1, (h4 x hx).2.1, (h4 x hx).2.2⟩,
          ?_⟩
        intro x hx hbx
        rcases List.mem_cons.mp hx with rfl | hx'
        · rw [hbx] at hb; cases hb
        · rw [heq]
          exact h5 x hx' hbx
      · have hnone : lookupA prev nb = none := by
          rcases ho : lookupA prev nb with - | v
          · rfl
          · rw [ho] at hs; simp at hs
        have hbf : blocked nb = false := by
          rcases hbv : blocked nb with - | -
          · rfl
          · rw [hbv] at hb; exact absurd rfl hb
        obtain ⟨news, h1, h2, h3, h4, h5⟩ :=
          ih (prev ++ [(nb, some cur)]) (queue ++ [nb])
        have heq : bfsExpand blocked cur (nb :: rest) prev queue =
            bfsExpand blocked cur rest (prev ++ [(nb, some cur)]) (queue ++ [nb]) := by
          rw [bfsExpand_cons, if_neg hs, if_neg hb]
        refine ⟨nb :: news, ?_, ?_, ?_, ?_, ?_⟩
        · rw [heq, h1, List.map_cons, List.append_assoc]
          rfl
        · rw [heq, h2, List.append_assoc]
          rfl
        · rw [List.nodup_cons]
          refine ⟨fun hmem => ?_, h3⟩
          have := (h4 nb hmem).2.2
          rw [lookupA_append_none] at this
          rw [lookupA_singleton] at this
          rw [if_pos rfl] at this
          cases this.2
        · intro x hx
          rcases List.mem_cons.mp hx with rfl | hx'
          · exact ⟨List.mem_cons_self _ _, hbf, hnone⟩
          · obtain ⟨hm, hbx, hlx⟩ := h4 x hx'
            rw [lookupA_append_none] at hlx
            exact ⟨List.mem_cons_of_mem _ hm, hbx, hlx.1⟩
        · intro x hx hbx
          rcases List.mem_cons.mp hx with rfl | hx'
          · rw [heq, h1]
            have hx1 : x ∈ keysOf (prev ++ [(x, some cur)]) := by
              rw [keysOf_append]
              exact List.mem_append_right _ (by simp [keysOf])
            exact mem_keysOf_append_left hx1 _
          · rw [heq]
            exact h5 x hx' hbx

/-- Cells of `univ` not yet recorded in `prev`; together with the queue
length this bounds the remaining work of the loop. -/
def cntNone (univ : List α) (prev : List (α × Option α)) : ℕ :=
  (univ.filter fun c => (lookupA prev c).isNone).length

theorem length_filter_drop {pfn : α → Bool} :
    ∀ (l : List α) (b : α), b ∈ l → pfn b = false →
      (l.filter pfn).length < l.length := by
  intro l
  induction l with
  | nil => intro b h; cases h
  | cons y tl ih =>
    intro b hb hpb
    rcases List.mem_cons.mp hb with rfl | hb'
    · rw [List.filter_cons, if_neg (by simp [hpb])]
      exact Nat.lt_succ_of_le (List.length_filter_le pfn tl)
    · by_cases hpy : pfn y = true
      · rw [List.filter_cons, if_pos hpy]
        exact Nat.succ_lt_succ (ih b hb' hpb)
      · rw [List.filter_cons, if_neg hpy]
        exact lt_trans (ih b hb' hpb) (Nat.lt_succ_self _)

theorem cnt_append_one (univ : List α) (prev : List (α × Option α))
    (nb : α) (v : Option α) (hmem : nb ∈ univ)
    (hnone : lookupA prev nb = none) :
    cntNone univ (prev ++ [(nb, v)]) < cntNone univ prev := by
  unfold cntNone
  have hfe : univ.filter (fun c => (lookupA (prev ++ [(nb, v)]) c).isNone) =
      (univ.filter fun c => (lookupA prev c).isNone).filter
        (fun c => !(decide (nb = c))) := by
    rw [List.filter_filter]
    apply List.filter_congr
    intro c _
    rcases hc : lookupA prev c with - | w
    · rw [lookupA_append_right hc, lookupA_singleton]
      by_cases h : nb = c
      · rw [if_pos h]
        simp [h]
      · rw [if_neg h]
        simp [h, hc]
    · rw [lookupA_append_left hc _]
      simp [hc]
  rw [hfe]
  refine length_filter_drop _ nb ?_ (by simp)
  rw [List.mem_filter]
  exact ⟨hmem, by rw [hnone]; rfl⟩

theorem cnt_expand_le (univ : List α) (cur : α) :
    ∀ (news : List α) (prev : List (α × Option α)), news.Nodup →
      (∀ nb ∈ news, nb ∈ univ ∧ lookupA prev nb = none) →
      cntNone univ (prev ++ news.map (fun nb => (nb, some cur))) + news.length ≤
        cntNone univ prev := by
  intro news
  induction news with
  | nil =>
    intro prev _ _
    simp
  | cons nb rest ih =>
    intro prev hnodup hfacts
    have h1 : cntNone univ (prev ++ [(nb, some cur)]) < cntNone univ prev :=
      cnt_append_one univ prev nb (some cur)
        (hfacts nb (List.mem_cons_self _ _)).1
        (hfacts nb (List.mem_cons_self _ _)).2
    have hfacts2 : ∀ x ∈ rest, x ∈ univ ∧
        lookupA (prev ++ [(nb, some cur)]) x = none := by
      intro x hx
      refine ⟨(hfacts x (List.mem_cons_of_mem _ hx)).1, ?_⟩
      rw [lookupA_append_none]
      refine ⟨(hfacts x (List.mem_cons_of_mem _ hx)).2, ?_⟩
      rw [lookupA_singleton, if_neg ?_]
      rintro rfl
      exact (List.nodup_cons.mp hnodup).1 hx
    have h2 := ih (prev ++ [(nb, some cur)]) (List.nodup_cons.mp hnodup).2 hfacts2
    rw [List.map_cons, List.append_cons]
    simp only [List.length_cons]
    omega

theorem loop_measure_step (nbrs : α → List α) (blocked : α → Bool)
    (univ : List α) (hnb : ∀ p, ∀ q ∈ nbrs p, q ∈ univ) (cur : α)
    (prev : List (α × Option α)) (rest : List α) :
    2 * cntNone univ (bfsExpand blocked cur (nbrs cur) prev rest).1 +
        (bfsExpand blocked cur (nbrs cur) prev rest).2.length <
      2 * cntNone univ prev + (cur :: rest).length := by
  obtain ⟨news, h1, h2, h3, h4, -⟩ := bfsExpand_spec blocked cur (nbrs cur) prev rest
  rw [h1, h2]
  have hle := cnt_expand_le univ cur news prev h3
    (fun nb h => ⟨hnb cur nb (h4 nb h).1, (h4 nb h).2.2⟩)
  simp only [List.length_append, List.length_cons]
  omega

theorem lookupA_map_const {news : List α} {p : α} {v : Option α} :
    lookupA (news.map fun nb => (nb, v)) p =
      if p ∈ news then some v else none := by
  induction news with
  | nil => simp [lookupA]
  | cons x tl ih =>
    simp only [List.map_cons, lookupA]
    by_cases hx : x = p
    · subst hx
      rw [if_pos rfl, if_pos (List.mem_cons_self _ _)]
    · rw [if_neg hx, ih]
      by_cases hp : p ∈ tl
      · rw [if_pos hp, if_pos (List.mem_cons_of_mem _ hp)]
      · rw [if_neg hp, if_neg (by
          intro hmem
          rcases List.mem_cons.mp hmem with rfl | h
          · exact hx rfl
          · exact hp h)]

theorem keysOf_map_const (news : List α) (v : Option α) :
    keysOf (news.map fun nb => (nb, v)) = news := by
  unfold keysOf
  induction news with
  | nil => rfl
  | cons x tl ih => simp only [List.map_cons, ih]

theorem reach_succ_inv {nbrs : α → List α} {blocked : α → Bool}
    {s t : α} {n : ℕ} (h : Reach nbrs blocked s t (n + 1)) :
    ∃ y, Reach nbrs blocked s y n ∧ Edge nbrs blocked y t := by
  cases h with
  | step hr he => exact ⟨_, hr, he⟩

/-- The breadth-first loop invariant: the queue splits into a level-`k`
front `A` and a level-`(k+1)` back `B`; every recorded cell carries a
minimal-length parent chain; every cell at distance ≤ `k` from the start
is recorded; and every processed cell's traversable neighbors are
recorded. -/
structure Inv (nbrs : α → List α) (blocked : α → Bool) (s : α)
    (prev : List (α × Option α)) (k : ℕ) (A B : List α) : Prop where
  nodup_keys : (keysOf prev).Nodup
  queue_nodup : (A ++ B).Nodup
  queue_sub : ∀ p ∈ A ++ B, p ∈ keysOf prev
  distA : ∀ p ∈ A, IsDist nbrs blocked s p k
  distB : ∀ p ∈ B, IsDist nbrs blocked s p (k + 1)
  covered : ∀ p n, IsDist nbrs blocked s p n → n ≤ k → p ∈ keysOf prev
  closure : ∀ p, p ∈ keysOf prev → p ∉ A ++ B →
    ∀ q, Edge nbrs blocked p q → q ∈ keysOf prev
  key_chain : ∀ p ∈ keysOf prev, ∃ n l, IsDist nbrs blocked s p n ∧
    Chain prev p l ∧ l.length = n + 1 ∧ l.Nodup ∧ ∀ x ∈ l, x ∈ keysOf prev
  parent_edge : ∀ p q, lookupA prev p = some (some q) →
    Edge nbrs blocked q p
  root_start : ∀ p, lookupA prev p = some none → p = s

/-- When the level-`k` front is exhausted, the whole queue is the
level-`(k+1)` front. -/
theorem inv_shift {nbrs : α → List α} {blocked : α → Bool} {s : α}
    {prev : List (α × Option α)} {k : ℕ} {B : List α}
    (hInv : Inv nbrs blocked s prev k [] B) :
    Inv nbrs blocked s prev (k + 1) B [] := by
  refine ⟨hInv.nodup_keys, ?_, ?_, ?_, ?_, ?_, ?_, hInv.key_chain,
    hInv.parent_edge, hInv.root_start⟩
  · simpa using hInv.queue_nodup
  · intro p hp
    exact hInv.queue_sub p (by simpa using hp)
  · intro p hp
    exact hInv.distB p (by simpa using hp)
  · intro p hp
    simp at hp
  · intro p n hdist hle
    rcases Nat.lt_or_ge n (k + 1) with h | h
    · exact hInv.covered p n hdist (by omega)
    · have hn : n = k + 1 := by omega
      subst hn
      obtain ⟨hreach, hmin⟩ := hdist
      obtain ⟨y, hr, he⟩ := reach_succ_inv hreach
      obtain ⟨m0, hm0⟩ := reachable_isDist ⟨_, hr⟩
      have hmk : m0 ≤ k := hm0.2 _ hr
      have hy : y ∈ keysOf prev := hInv.covered _ m0 hm0 hmk
      have hynq : y ∉ ([] ++ B : List α) := by
        intro hmem
        have hd := hInv.distB y (by simpa using hmem)
        have : m0 = k + 1 := isDist_unique hm0 hd
        omega
      exact hInv.closure y hy hynq p he
  · intro p hp hpq
    exact hInv.closure p hp (by simpa using hpq)

/-- Popping the head of the level-`k` front and expanding its neighbors
preserves the invariant, with the fresh cells appended at level `k+1`. -/
theorem inv_pop {nbrs : α → List α} {blocked : α → Bool} {s : α}
    {prev : List (α × Option α)} {k : ℕ} {cur : α} {A B : List α}
    (hInv : Inv nbrs blocked s prev k (cur :: A) B) :
    ∃ news,
      (bfsExpand blocked cur (nbrs cur) prev (A ++ B)).2 =
        (A ++ B) ++ news ∧
      Inv nbrs blocked s
        (bfsExpand blocked cur (nbrs cur) prev (A ++ B)).1 k A
        (B ++ news) := by
  obtain ⟨news, h1, h2, h3, h4, h5⟩ :=
    bfsExpand_spec blocked cur (nbrs cur) prev (A ++ B)
  have hcur_dist : IsDist nbrs blocked s cur k :=
    hInv.distA cur (List.mem_cons_self _ _)
  have hkeys : keysOf (bfsExpand blocked cur (nbrs cur) prev (A ++ B)).1 =
      keysOf prev ++ news := by
    rw [h1, keysOf_append, keysOf_map_const]
  have hfresh : ∀ nb ∈ news, nb ∉ keysOf prev := by
    intro nb hnb
    rw [← lookupA_eq_none]
    exact (h4 nb hnb).2.2
  have hnews_dist : ∀ nb ∈ news, IsDist nbrs blocked s nb (k + 1) := by
    intro nb hnb
    obtain ⟨hmem, hbf, -⟩ := h4 nb hnb
    refine ⟨Reach.step hcur_dist.1 ⟨hmem, hbf⟩, ?_⟩
    intro m hm
    obtain ⟨m0, hm0⟩ := reachable_isDist ⟨_, hm⟩
    by_contra hlt
    push_neg at hlt
    have hm0m : m0 ≤ m := hm0.2 _ hm
    have : m0 ≤ k := by omega
    exact hfresh nb hnb (hInv.covered nb m0 hm0 this)
  have hqueue_keys : ∀ p ∈ A ++ B, p ∈ keysOf prev := by
    intro p hp
    exact hInv.queue_sub p (List.mem_cons_of_mem _ hp)
  refine ⟨news, h2, ?_⟩
  refine ⟨?_, ?_, ?_, ?_, ?_, ?_, ?_, ?_, ?_, ?_⟩
  · rw [hkeys, List.nodup_append]
    exact ⟨hInv.nodup_keys, h3, fun x hx hx2 => hfresh x hx2 hx⟩
  · rw [← List.append_assoc]
    rw [List.nodup_append]
    refine ⟨?_, h3, ?_⟩
    · have := hInv.queue_nodup
      rw [List.cons_append, List.nodup_cons] at this
      exact this.2
    · intro x hx hx2
      exact hfresh x hx2 (hqueue_keys x hx)
  · intro p hp
    rw [hkeys]
    rw [← List.append_assoc] at hp
    rcases List.mem_append.mp hp with h | h
    · exact List.mem_append_left _ (hqueue_keys p h)
    · exact List.mem_append_right _ h
  · intro p hp
    exact hInv.distA p (List.mem_cons_of_mem _ hp)
  · intro p hp
    rcases List.mem_append.mp hp with h | h
    · exact hInv.distB p h
    · exact hnews_dist p h
  · intro p n hdist hle
    rw [hkeys]
    exact List.mem_append_left _ (hInv.covered p n hdist hle)
  · intro p hp hpq q he
    rw [hkeys] at hp ⊢
    rcases List.mem_append.mp hp with hpold | hpnews
    · by_cases hpc : p = cur
      · subst hpc
        exact h5 q he.1 he.2 |> fun h => by rw [hkeys] at h; exact h
      · have hpnotin : p ∉ (cur :: A) ++ B := by
          intro hmem
          rcases List.mem_cons.mp (by
            rw [List.cons_append] at hmem
            exact hmem) with h | h
          · exact hpc h
          · exact hpq (by
              rw [← List.append_assoc]
              exact List.mem_append_left _ h)
        exact List.mem_append_left _ (hInv.closure p hpold hpnotin q he)
    · exact absurd (by
        rw [← List.append_assoc]
        exact List.mem_append_right _ hpnews) hpq
  · intro p hp
    rw [hkeys] at hp
    rcases List.mem_append.mp hp with hpold | hpnews
    · obtain ⟨n, l, hd, hc, hlen, hnd, hsub⟩ := hInv.key_chain p hpold
      refine ⟨n, l, hd, h1 ▸ chain_mono hc, hlen, hnd, ?_⟩
      intro x hx
      rw [hkeys]
      exact List.mem_append_left _ (hsub x hx)
    · obtain ⟨nc, lc, hdc, hcc, hlenc, hndc, hsubc⟩ :=
        hInv.key_chain cur (hInv.queue_sub cur (List.mem_cons_self _ _))
      have hnck : nc = k := isDist_unique hdc hcur_dist
      rw [hnck] at hlenc
      have hlook : lookupA (bfsExpand blocked cur (nbrs cur) prev (A ++ B)).1 p =
          some (some cur) := by
        rw [h1, lookupA_append_right (lookupA_eq_none.mpr (hfresh p hpnews)),
          lookupA_map_const, if_pos hpnews]
      refine ⟨k + 1, p :: lc, hnews_dist p hpnews,
        Chain.step hlook (h1 ▸ chain_mono hcc), by simp [hlenc], ?_, ?_⟩
      · rw [List.nodup_cons]
        exact ⟨fun hmem => hfresh p hpnews (hsubc p hmem), hndc⟩
      · intro x hx
        rw [hkeys]
        rcases List.mem_cons.mp hx with rfl | hx'
        · exact List.mem_append_right _ hpnews
        · exact List.mem_append_left _ (hsubc x hx')
  · intro p q hlook
    rw [h1] at hlook
    rcases hold : lookupA prev p with - | v
    · rw [lookupA_append_right hold, lookupA_map_const] at hlook
      by_cases hp : p ∈ news
      · rw [if_pos hp] at hlook
        obtain rfl : cur = q := Option.some.inj (Option.some.inj hlook)
        exact ⟨(h4 p hp).1, (h4 p hp).2.1⟩
      · rw [if_neg hp] at hlook
        cases hlook
    · rw [lookupA_append_left hold] at hlook
      obtain rfl : v = some q := Option.some.inj hlook
      exact hInv.parent_edge p q hold
  · intro p hlook
    rw [h1] at hlook
    rcases hold : lookupA prev p with - | v
    · rw [lookupA_append_right hold, lookupA_map_const] at hlook
      by_cases hp : p ∈ news
      · rw [if_pos hp] at hlook
        simp at hlook
      · rw [if_neg hp] at hlook
        cases hlook
    · rw [lookupA_append_left hold] at hlook
      obtain rfl : v = none := Option.some.inj hlook
      exact hInv.root_start p hold

/-- The facts about the final `prev` map that `compute_route` needs. -/
def FinalSpec (nbrs : α → List α) (blocked : α → Bool) (s goal : α)
    (final : List (α × Option α)) : Prop :=
  (∀ p q, lookupA final p = some (some q) → Edge nbrs blocked q p) ∧
  (∀ p, lookupA final p = some none → p = s) ∧
  (goal ∈ keysOf final → ∃ n l, IsDist nbrs blocked s goal n ∧
    Chain final goal l ∧ l.length = n + 1 ∧ l.Nodup ∧
    ∀ x ∈ l, x ∈ keysOf final) ∧
  (goal ∉ keysOf final → ¬ Reachable nbrs blocked s goal)

theorem finalSpec_of_goal_mem {nbrs : α → List α} {blocked : α → Bool}
    {s goal : α} {prev : List (α × Option α)} {k : ℕ} {A B : List α}
    (hInv : Inv nbrs blocked s prev k A B) (hmem : goal ∈ keysOf prev) :
    FinalSpec nbrs blocked s goal prev :=
  ⟨hInv.parent_edge, hInv.root_start, fun _ => hInv.key_chain goal hmem,
    fun h => absurd hmem h⟩

theorem finalSpec_of_empty {nbrs : α → List α} {blocked : α → Bool}
    {s goal : α} {prev : List (α × Option α)} {k : ℕ}
    (hInv : Inv nbrs blocked s prev k [] []) :
    FinalSpec nbrs blocked s goal prev := by
  refine ⟨hInv.parent_edge, hInv.root_start,
    fun h => hInv.key_chain goal h, ?_⟩
  intro hnotin hreach
  obtain ⟨n, hn⟩ := hreach
  have hall : ∀ (t : α) (m : ℕ), Reach nbrs blocked s t m →
      t ∈ keysOf prev := by
    intro t m hm
    induction hm with
    | refl =>
      exact hInv.covered s 0 ⟨Reach.refl, fun m _ => Nat.zero_le m⟩
        (Nat.zero_le k)
    | step hr he ih =>
      exact hInv.closure _ ih (by simp) _ he
  exact hnotin (hall goal n hn)

theorem bfsLoop_spec_step (nbrs : α → List α) (blocked : α → Bool)
    (univ : List α) (hnb : ∀ p, ∀ q ∈ nbrs p, q ∈ univ) (s goal : α)
    (f : ℕ)
    (ih : ∀ (prev : List (α × Option α)) (k : ℕ) (A B : List α),
      Inv nbrs blocked s prev k A B →
      2 * cntNone univ prev + (A ++ B).length < f →
      FinalSpec nbrs blocked s goal (bfsLoop nbrs blocked goal f prev (A ++ B)))
    (prev : List (α × Option α)) (k : ℕ) (cur : α) (A B : List α)
    (hInv : Inv nbrs blocked s prev k (cur :: A) B)
    (hm : 2 * cntNone univ prev + (cur :: (A ++ B)).length < f + 1) :
    FinalSpec nbrs blocked s goal
      (bfsLoop nbrs blocked goal (f + 1) prev (cur :: (A ++ B))) := by
  have hred : bfsLoop nbrs blocked goal (f + 1) prev (cur :: (A ++ B)) =
      if cur = goal then prev
      else bfsLoop nbrs blocked goal f
        (bfsExpand blocked cur (nbrs cur) prev (A ++ B)).1
        (bfsExpand blocked cur (nbrs cur) prev (A ++ B)).2 := rfl
  rw [hred]
  by_cases hg : cur = goal
  · rw [if_pos hg]
    exact finalSpec_of_goal_mem hInv
      (hg ▸ hInv.queue_sub cur (List.mem_cons_self _ _))
  · rw [if_neg hg]
    obtain ⟨news, hq2, hInv2⟩ := inv_pop hInv
    have hmeas := loop_measure_step nbrs blocked univ hnb cur prev (A ++ B)
    rw [hq2] at hmeas ⊢
    rw [List.append_assoc]
    refine ih _ k A (B ++ news) hInv2 ?_
    simp only [List.length_append, List.length_cons] at hmeas hm ⊢
    omega

theorem bfsLoop_spec (nbrs : α → List α) (blocked : α → Bool)
    (univ : List α) (hnb : ∀ p, ∀ q ∈ nbrs p, q ∈ univ) (s goal : α) :
    ∀ (fuel : ℕ) (prev : List (α × Option α)) (k : ℕ) (A B : List α),
      Inv nbrs blocked s prev k A B →
      2 * cntNone univ prev + (A ++ B).length < fuel →
      FinalSpec nbrs blocked s goal
        (bfsLoop nbrs blocked goal fuel prev (A ++ B)) := by
  intro fuel
  induction fuel with
  | zero =>
    intro prev k A B _ hm
    omega
  | succ f ih =>
    intro prev k A B hInv hm
    cases A with
    | nil =>
      cases B with
      | nil => exact finalSpec_of_empty hInv
      | cons cur B2 =>
        have hInv2 : Inv nbrs blocked s prev (k + 1) (cur :: B2) [] :=
          inv_shift hInv
        have h := bfsLoop_spec_step nbrs blocked univ hnb s goal f ih prev
          (k + 1) cur B2 [] hInv2 (by
            simp only [List.length_cons, List.length_append, List.length_nil,
              List.nil_append] at hm ⊢
            omega)
        simpa using h
    | cons cur A2 =>
      rw [List.cons_append]
      exact bfsLoop_spec_step nbrs blocked univ hnb s goal f ih prev k cur
        A2 B hInv (by
          simp only [List.length_cons, List.length_append] at hm ⊢
          omega)

theorem chain_ne_nil {prev : List (α × Option α)} {p : α} {l : List α}
    (h : Chain prev p l) : l ≠ [] := by
  cases h <;> simp

theorem backtrack_eq_chain {prev : List (α × Option α)} :
    ∀ {p : α} {l : List α}, Chain prev p l →
      ∀ fuel, l.length ≤ fuel + 1 → backtrack prev fuel p = l := by
  intro p l hc
  induction hc with
  | @base p hp =>
    intro fuel _
    cases fuel with
    | zero => rfl
    | succ f =>
      have hred : backtrack prev (f + 1) p =
          match lookupA prev p with
          | some (some q) => p :: backtrack prev f q
          | _ => [p] := rfl
      rw [hred, hp]
  | @step p q l hp hc ih =>
    intro fuel hlen
    have hpos : 0 < l.length := List.length_pos.mpr (chain_ne_nil hc)
    cases fuel with
    | zero =>
      exfalso
      simp only [List.length_cons] at hlen
      omega
    | succ f =>
      have hred : backtrack prev (f + 1) p =
          match lookupA prev p with
          | some (some q) => p :: backtrack prev f q
          | _ => [p] := rfl
      rw [hred, hp]
      show p :: backtrack prev f q = p :: l
      rw [ih f (by simp only [List.length_cons] at hlen; omega)]

theorem chain_length_le {prev : List (α × Option α)} {l : List α}
    (hnd : l.Nodup) (hsub : ∀ x ∈ l, x ∈ keysOf prev) :
    l.length ≤ prev.length := by
  classical
  calc l.length = l.toFinset.card := (List.toFinset_card_of_nodup hnd).symm
    _ ≤ (keysOf prev).toFinset.card := Finset.card_le_card (fun x hx => by
        rw [List.mem_toFinset] at hx ⊢
        exact hsub x hx)
    _ ≤ (keysOf prev).length := (keysOf prev).toFinset_card_le
    _ = prev.length := List.length_map _ _

theorem chain_reach {nbrs : α → List α} {blocked : α → Bool} {s : α}
    {prev : List (α × Option α)}
    (hroot : ∀ p, lookupA prev p = some none → p = s)
    (hedge : ∀ p q, lookupA prev p = some (some q) → Edge nbrs blocked q p) :
    ∀ {p : α} {l : List α}, Chain prev p l →
      Reach nbrs blocked s p (l.length - 1) := by
  intro p l hc
  induction hc with
  | @base p hp =>
    obtain rfl := hroot _ hp
    exact Reach.refl
  | @step p q l hp hc ih =>
    have hpos : 0 < l.length := List.length_pos.mpr (chain_ne_nil hc)
    have hr := Reach.step ih (hedge _ _ hp)
    have harith : l.length - 1 + 1 = (p :: l).length - 1 := by
      simp only [List.length_cons]
      omega
    rw [harith] at hr
    exact hr

theorem chain_props {nbrs : α → List α} {blocked : α → Bool} {s : α}
    {prev : List (α × Option α)}
    (hroot : ∀ p, lookupA prev p = some none → p = s)
    (hedge : ∀ p q, lookupA prev p = some (some q) → Edge nbrs blocked q p) :
    ∀ {p : α} {l : List α}, Chain prev p l →
      l.head? = some p ∧ l.getLast? = some s ∧
        List.Chain' (fun a b => Edge nbrs blocked b a) l := by
  intro p l hc
  induction hc with
  | @base p hp =>
    obtain rfl := hroot _ hp
    exact ⟨rfl, rfl, List.chain'_singleton _⟩
  | @step p q l hp hc ih =>
    obtain ⟨ih1, ih2, ih3⟩ := ih
    refine ⟨rfl, ?_, ?_⟩
    · cases l with
      | nil => exact absurd rfl (chain_ne_nil hc)
      | cons y t =>
        rw [List.getLast?_cons_cons]
        exact ih2
    · refine List.chain'_cons'.mpr ⟨?_, ih3⟩
      intro b hb
      rw [ih1, Option.mem_some_iff] at hb
      subst hb
      exact hedge _ _ hp

theorem chain_blocked {nbrs : α → List α} {blocked : α → Bool} {s : α}
    {prev : List (α × Option α)}
    (hroot : ∀ p, lookupA prev p = some none → p = s)
    (hedge : ∀ p q, lookupA prev p = some (some q) → Edge nbrs blocked q p)
    (hbs : blocked s = false) :
    ∀ {p : α} {l : List α}, Chain prev p l →
      ∀ x ∈ l, blocked x = false := by
  intro p l hc
  induction hc with
  | @base p hp =>
    intro x hx
    obtain rfl := hroot _ hp
    rw [List.mem_singleton] at hx
    subst hx
    exact hbs
  | @step p q l hp hc ih =>
    intro x hx
    rcases List.mem_cons.mp hx with rfl | hx'
    · exact (hedge _ _ hp).2
    · exact ih x hx'

theorem walk_reach {nbrs : α → List α} {blocked : α → Bool} :
    ∀ (l : List α) (s g : α), List.Chain' (Edge nbrs blocked) l →
      l.head? = some s → l.getLast? = some g →
      Reach nbrs blocked s g (l.length - 1) := by
  intro l
  induction l with
  | nil =>
    intro s g _ h
    cases h
  | cons x t ih =>
    intro s g hch hh hl
    obtain rfl : x = s := Option.some.inj hh
    cases t with
    | nil =>
      obtain rfl : x = g := Option.some.inj hl
      exact Reach.refl
    | cons y t2 =>
      rw [List.getLast?_cons_cons] at hl
      obtain ⟨he, hch'⟩ := List.chain'_cons.mp hch
      have hr1 : Reach nbrs blocked x y 1 := Reach.step Reach.refl he
      have hr2 := ih y g hch' rfl hl
      have hr := reach_trans hr1 hr2
      have harith : 1 + ((y :: t2).length - 1) = (x :: y :: t2).length - 1 := by
        simp only [List.length_cons]
        omega
      rw [harith] at hr
      exact hr

/-- The body of `compute_route`, generic over neighbors and blockedness:
run the BFS loop from `[start]`, return `[start]` when the goal was never
recorded, otherwise backtrack from the goal and reverse. -/
def bfsRoute (nbrs : α → List α) (blocked : α → Bool) (fuel : ℕ)
    (start goal : α) : List α :=
  let prev := bfsLoop nbrs blocked goal fuel [(start, none)] [start]
  match lookupA prev goal with
  | none => [start]
  | some _ => (backtrack prev prev.length goal).reverse

theorem inv_init (nbrs : α → List α) (blocked : α → Bool) (s : α) :
    Inv nbrs blocked s [(s, none)] 0 [s] [] := by
  have hlook : ∀ p : α, lookupA [(s, (none : Option α))] p =
      if s = p then some none else none := fun p => rfl
  have hkeys : keysOf [(s, (none : Option α))] = [s] := rfl
  refine ⟨?_, ?_, ?_, ?_, ?_, ?_, ?_, ?_, ?_, ?_⟩
  · rw [hkeys]
    exact List.nodup_singleton s
  · simp
  · intro p hp
    rw [hkeys]
    simpa using hp
  · intro p hp
    rw [List.mem_singleton] at hp
    subst hp
    exact ⟨Reach.refl, fun m _ => Nat.zero_le m⟩
  · intro p hp
    simp at hp
  · intro p n hdist hle
    have hn0 : n = 0 := by omega
    subst hn0
    obtain rfl := reach_zero_iff.mp hdist.1
    rw [hkeys]
    exact List.mem_singleton.mpr rfl
  · intro p hp hpq
    rw [hkeys, List.mem_singleton] at hp
    subst hp
    exact absurd (by simp) hpq
  · intro p hp
    rw [hkeys, List.mem_singleton] at hp
    subst hp
    refine ⟨0, [p], ⟨Reach.refl, fun m _ => Nat.zero_le m⟩,
      Chain.base (by rw [hlook, if_pos rfl]), rfl, List.nodup_singleton p,
      ?_⟩
    intro x hx
    rw [List.mem_singleton] at hx
    subst hx
    rw [hkeys]
    exact List.mem_singleton.mpr rfl
  · intro p q hl
    rw [hlook] at hl
    by_cases h : s = p
    · rw [if_pos h] at hl
      simp at hl
    · rw [if_neg h] at hl
      cases hl
  · intro p hl
    rw [hlook] at hl
    by_cases h : s = p
    · exact h.symm
    · rw [if_neg h] at hl
      cases hl

/-- Full correctness of the generic BFS route: `[start]` exactly when the
goal is unreachable, and otherwise a minimal-length traversable walk from
start to goal. -/
theorem bfsRoute_correct (nbrs : α → List α) (blocked : α → Bool)
    (univ : List α) (hnb : ∀ p, ∀ q ∈ nbrs p, q ∈ univ)
    (s goal : α) (fuel : ℕ) (hfuel : 2 * univ.length + 1 < fuel) :
    (¬ Reachable nbrs blocked s goal → bfsRoute nbrs blocked fuel s goal = [s]) ∧
    (∀ n, IsDist nbrs blocked s goal n →
      (bfsRoute nbrs blocked fuel s goal).length = n + 1 ∧
      (bfsRoute nbrs blocked fuel s goal).head? = some s ∧
      (bfsRoute nbrs blocked fuel s goal).getLast? = some goal ∧
      List.Chain' (Edge nbrs blocked) (bfsRoute nbrs blocked fuel s goal) ∧
      (blocked s = false →
        ∀ x ∈ bfsRoute nbrs blocked fuel s goal, blocked x = false)) := by
  have hmeas : 2 * cntNone univ [(s, none)] + ([s] ++ ([] : List α)).length <
      fuel := by
    have hc : cntNone univ [(s, none)] ≤ univ.length :=
      List.length_filter_le _ univ
    simp only [List.append_nil, List.length_singleton]
    omega
  have hfs := bfsLoop_spec nbrs blocked univ hnb s goal fuel [(s, none)] 0
    [s] [] (inv_init nbrs blocked s) hmeas
  rw [List.append_nil] at hfs
  obtain ⟨hpe, hroot, hmem_spec, hnot_spec⟩ := hfs
  have hroute : bfsRoute nbrs blocked fuel s goal =
      match lookupA (bfsLoop nbrs blocked goal fuel [(s, none)] [s]) goal with
      | none => [s]
      | some _ =>
        (backtrack (bfsLoop nbrs blocked goal fuel [(s, none)] [s])
          (bfsLoop nbrs blocked goal fuel [(s, none)] [s]).length goal).reverse
      := rfl
  constructor
  · intro hunreach
    have hnotin : goal ∉ keysOf (bfsLoop nbrs blocked goal fuel [(s, none)] [s]) := by
      intro hmem
      obtain ⟨n, l, hd, hc, -, -, -⟩ := hmem_spec hmem
      exact hunreach ⟨n, hd.1⟩
    rw [hroute, lookupA_eq_none.mpr hnotin]
  · intro n hn
    have hmem : goal ∈ keysOf (bfsLoop nbrs blocked goal fuel [(s, none)] [s]) := by
      by_contra hnm
      exact hnot_spec hnm ⟨n, hn.1⟩
    obtain ⟨n2, l, hd, hc, hlen, hnd, hsub⟩ := hmem_spec hmem
    obtain rfl : n2 = n := isDist_unique hd hn
    obtain ⟨v, hv⟩ := Option.isSome_iff_exists.mp (lookupA_isSome.mpr hmem)
    have hbt := backtrack_eq_chain hc
      (bfsLoop nbrs blocked goal fuel [(s, none)] [s]).length
      (by
        have := chain_length_le hnd hsub
        omega)
    have hroute2 : bfsRoute nbrs blocked fuel s goal = l.reverse := by
      rw [hroute, hv, hbt]
    obtain ⟨hh, hgl, hch⟩ := chain_props hroot hpe hc
    rw [hroute2]
    refine ⟨by rw [List.length_reverse, hlen], ?_, ?_, ?_, ?_⟩
    · rw [List.head?_reverse, hgl]
    · rw [List.getLast?_reverse, hh]
    · rw [List.chain'_reverse]
      exact hch
    · intro hbs x hx
      rw [List.mem_reverse] at hx
      exact chain_blocked hroot hpe hbs hc x hx

end GenBFS

/-! ## Grid instantiation of the BFS -/

/-- The blocked test of `compute_route`:
`self.grid.layout.get(nb) == CELL_BLOCK`. -/
def isBlockCell (layout : Pos → Option Cell) (p : Pos) : Bool :=
  decide (layout p = some Cell.block)

/-- `Server.compute_route(start, goal)`: breadth-first search over the
grid, skipping blocked cells; `[start]` when the goal is unreachable. -/
def compute_route (W H : ℕ) (layout : Pos → Option Cell)
    (start goal : Pos) : List Pos :=
  bfsRoute (neighbors W H) (isBlockCell layout)
    (2 * (allCells W H).length + 2) start goal

theorem neighbors_sub_allCells (W H : ℕ) :
    ∀ p : Pos, ∀ q ∈ neighbors W H p, q ∈ allCells W H := by
  intro p q hq
  obtain ⟨d, hd, hif⟩ := List.mem_filterMap.mp hq
  by_cases hw : within_grid W H (p.1 + d.1, p.2 + d.2)
  · rw [if_pos hw] at hif
    obtain rfl := Option.some.inj hif
    exact mem_allCells.mpr hw
  · rw [if_neg hw] at hif
    cases hif

theorem neighbors_mem_char {W H : ℕ} {p q : Pos}
    (h : q ∈ neighbors W H p) :
    within_grid W H q ∧ manhattan p q = 1 := by
  obtain ⟨d, hd, hif⟩ := List.mem_filterMap.mp h
  by_cases hw : within_grid W H (p.1 + d.1, p.2 + d.2)
  · rw [if_pos hw] at hif
    obtain rfl := Option.some.inj hif
    refine ⟨hw, ?_⟩
    simp only [List.mem_cons, List.mem_singleton, List.not_mem_nil,
      or_false] at hd
    rcases hd with rfl | rfl | rfl | rfl <;>
      (dsimp only [manhattan]; omega)
  · rw [if_neg hw] at hif
    cases hif

theorem neighbors_intro {W H : ℕ} (p d : Pos)
    (hd : d ∈ ([((1 : ℤ), (0 : ℤ)), (-1, 0), (0, 1), (0, -1)] : List Pos))
    (hw : within_grid W H (p.1 + d.1, p.2 + d.2)) :
    (p.1 + d.1, p.2 + d.2) ∈ neighbors W H p :=
  List.mem_filterMap.mpr ⟨d, hd, by rw [if_pos hw]⟩

theorem reach_manhattan_le {W H : ℕ} {blocked : Pos → Bool} {s p : Pos}
    {n : ℕ} (h : Reach (neighbors W H) blocked s p n) :
    manhattan s p ≤ n := by
  induction h with
  | refl => dsimp only [manhattan]; omega
  | @step p2 q m hr he ih =>
    have h1 := (neighbors_mem_char he.1).2
    dsimp only [manhattan] at *
    omega

theorem reach_of_manhattan {W H : ℕ} {blocked : Pos → Bool}
    (hub : ∀ p, within_grid W H p → blocked p = false) :
    ∀ (n : ℕ) (s g : Pos), within_grid W H s → within_grid W H g →
      manhattan s g = n → Reach (neighbors W H) blocked s g n := by
  intro n
  induction n with
  | zero =>
    intro s g hs hg h0
    obtain ⟨s1, s2⟩ := s
    obtain ⟨g1, g2⟩ := g
    dsimp only [manhattan] at h0
    obtain ⟨rfl, rfl⟩ : g1 = s1 ∧ g2 = s2 := by omega
    exact Reach.refl
  | succ m ih =>
    intro s g hs hg hm
    obtain ⟨hs1, hs2, hs3, hs4⟩ := hs
    obtain ⟨hg1, hg2, hg3, hg4⟩ := hg
    rcases lt_trichotomy s.1 g.1 with hx | hx | hx
    · have hw : within_grid W H (s.1 + (1 : ℤ), s.2 + (0 : ℤ)) := by
        refine ⟨by omega, by omega, by omega, by omega⟩
      have hedge : Edge (neighbors W H) blocked s (s.1 + (1 : ℤ), s.2 + (0 : ℤ)) :=
        ⟨neighbors_intro s ((1 : ℤ), (0 : ℤ)) (by simp) hw, hub _ hw⟩
      have hnext := ih (s.1 + (1 : ℤ), s.2 + (0 : ℤ)) g hw
        ⟨hg1, hg2, hg3, hg4⟩ (by dsimp only [manhattan] at hm ⊢; omega)
      have := reach_trans (Reach.step Reach.refl hedge) hnext
      simpa [Nat.add_comm] using this
    · rcases lt_trichotomy s.2 g.2 with hy | hy | hy
      · have hw : within_grid W H (s.1 + (0 : ℤ), s.2 + (1 : ℤ)) := by
          refine ⟨by omega, by omega, by omega, by omega⟩
        have hedge : Edge (neighbors W H) blocked s (s.1 + (0 : ℤ), s.2 + (1 : ℤ)) :=
          ⟨neighbors_intro s ((0 : ℤ), (1 : ℤ)) (by simp) hw, hub _ hw⟩
        have hnext := ih (s.1 + (0 : ℤ), s.2 + (1 : ℤ)) g hw
          ⟨hg1, hg2, hg3, hg4⟩ (by dsimp only [manhattan] at hm ⊢; omega)
        have := reach_trans (Reach.step Reach.refl hedge) hnext
        simpa [Nat.add_comm] using this
      · exfalso
        dsimp only [manhattan] at hm
        omega
      · have hw : within_grid W H (s.1 + (0 : ℤ), s.2 + (-1 : ℤ)) := by
          refine ⟨by omega, by omega, by omega, by omega⟩
        have hedge : Edge (neighbors W H) blocked s (s.1 + (0 : ℤ), s.2 + (-1 : ℤ)) :=
          ⟨neighbors_intro s ((0 : ℤ), (-1 : ℤ)) (by simp) hw, hub _ hw⟩
        have hnext := ih (s.1 + (0 : ℤ), s.2 + (-1 : ℤ)) g hw
          ⟨hg1, hg2, hg3, hg4⟩ (by dsimp only [manhattan] at hm ⊢; omega)
        have := reach_trans (Reach.step Reach.refl hedge) hnext
        simpa [Nat.add_comm] using this
    · have hw : within_grid W H (s.1 + (-1 : ℤ), s.2 + (0 : ℤ)) := by
        refine ⟨by omega, by omega, by omega, by omega⟩
      have hedge : Edge (neighbors W H) blocked s (s.1 + (-1 : ℤ), s.2 + (0 : ℤ)) :=
        ⟨neighbors_intro s ((-1 : ℤ), (0 : ℤ)) (by simp) hw, hub _ hw⟩
      have hnext := ih (s.1 + (-1 : ℤ), s.2 + (0 : ℤ)) g hw
        ⟨hg1, hg2, hg3, hg4⟩ (by dsimp only [manhattan] at hm ⊢; omega)
      have := reach_trans (Reach.step Reach.refl hedge) hnext
      simpa [Nat.add_comm] using this

theorem isDist_manhattan {W H : ℕ} {blocked : Pos → Bool}
    (hub : ∀ p, within_grid W H p → blocked p = false) {s g : Pos}
    (hs : within_grid W H s) (hg : within_grid W H g) :
    IsDist (neighbors W H) blocked s g (manhattan s g) :=
  ⟨reach_of_manhattan hub (manhattan s g) s g hs hg rfl,
    fun m hm => reach_manhattan_le hm⟩

/-! ## Claim C4: path length on layouts without blocks -/

/-- C4 (amended): on a layout with no Blocked cells at all, for every
start and goal inside the grid, `compute_route` returns a path whose
number of moves equals the Manhattan distance between start and goal
(i.e., `manhattan + 1` positions). -/
theorem C4_compute_route_manhattan (W H : ℕ) (layout : Pos → Option Cell)
    (hnoblock : ∀ p, layout p ≠ some Cell.block) (start goal : Pos)
    (hs : within_grid W H start) (hg : within_grid W H goal) :
    (compute_route W H layout start goal).length =
      manhattan start goal + 1 := by
  have hub : ∀ p, within_grid W H p → isBlockCell layout p = false :=
    fun p _ => decide_eq_false (hnoblock p)
  have hdist := isDist_manhattan hub hs hg
  exact ((bfsRoute_correct (neighbors W H) (isBlockCell layout)
    (allCells W H) (neighbors_sub_allCells W H) start goal
    (2 * (allCells W H).length + 2) (by omega)).2
    (manhattan start goal) hdist).1

/-- C4 witness: the 5×5 blockless scenario — the route from `(0,0)` to
`(4,4)` has exactly 9 positions (8 moves). -/
theorem C4_compute_route_manhattan_witness :
    (compute_route 5 5 (fun _ => some Cell.road) (0, 0) (4, 4)).length = 9 := by
  have h := C4_compute_route_manhattan 5 5 (fun _ => some Cell.road)
    (fun p => by simp) (0, 0) (4, 4) (by decide) (by decide)
  rw [h]
  decide

/-- C4 counterexample to the claim as stated: a Blocked cell at `(1,0)`
does not separate `(0,0)` from `(2,0)` (the goal is still reachable), yet
the returned path has 4 moves while the Manhattan distance is 2. -/
theorem C4_counterexample :
    Reachable (neighbors 12 8)
      (isBlockCell fun p => if p = ((1 : ℤ), (0 : ℤ)) then some Cell.block
        else some Cell.road) ((0 : ℤ), (0 : ℤ)) ((2 : ℤ), (0 : ℤ)) ∧
    manhattan ((0 : ℤ), (0 : ℤ)) ((2 : ℤ), (0 : ℤ)) = 2 ∧
    (compute_route 12 8
      (fun p => if p = ((1 : ℤ), (0 : ℤ)) then some Cell.block
        else some Cell.road) ((0 : ℤ), (0 : ℤ)) ((2 : ℤ), (0 : ℤ))).length = 5 := by
  refine ⟨⟨4, ?_⟩, by decide, by decide⟩
  refine Reach.step (Reach.step (Reach.step (Reach.step Reach.refl
    (q := ((0 : ℤ), (1 : ℤ))) ⟨by decide, by decide⟩)
    (q := ((1 : ℤ), (1 : ℤ))) ⟨by decide, by decide⟩)
    (q := ((2 : ℤ), (1 : ℤ))) ⟨by decide, by decide⟩)
    (q := ((2 : ℤ), (0 : ℤ))) ⟨by decide, by decide⟩

/-! ## Claim C5: BFS behavior -/

/-- C5 (amended): `compute_route` expands neighbors in the fixed order
`+x, −x, +y, −y`; when the goal is reachable through non-Blocked cells it
returns a shortest traversable path from start to goal (consecutive cells
are 4-neighbors, and — provided the start itself is not Blocked — no cell
of the path is Blocked); and it returns the singleton `[start]` when the
goal is unreachable.  (As stated the claim also fails for a Blocked
start: the search still expands from it, so the returned path can contain
the Blocked start cell.) -/
theorem C5_compute_route_bfs (W H : ℕ) (layout : Pos → Option Cell)
    (start goal : Pos) (hstart : layout start ≠ some Cell.block) :
    (∀ p : Pos, neighbors W H p =
      ([(p.1 + 1, p.2), (p.1 - 1, p.2), (p.1, p.2 + 1), (p.1, p.2 - 1)] :
        List Pos).filter (fun n => decide (within_grid W H n))) ∧
    (¬ Reachable (neighbors W H) (isBlockCell layout) start goal →
      compute_route W H layout start goal = [start]) ∧
    (∀ n, IsDist (neighbors W H) (isBlockCell layout) start goal n →
      (compute_route W H layout start goal).length = n + 1 ∧
      (compute_route W H layout start goal).head? = some start ∧
      (compute_route W H layout start goal).getLast? = some goal ∧
      List.Chain' (Edge (neighbors W H) (isBlockCell layout))
        (compute_route W H layout start goal) ∧
      (∀ x ∈ compute_route W H layout start goal,
        layout x ≠ some Cell.block) ∧
      (∀ l : List Pos,
        List.Chain' (Edge (neighbors W H) (isBlockCell layout)) l →
        l.head? = some start → l.getLast? = some goal →
        (compute_route W H layout start goal).length ≤ l.length)) := by
  have hcorrect := bfsRoute_correct (neighbors W H) (isBlockCell layout)
    (allCells W H) (neighbors_sub_allCells W H) start goal
    (2 * (allCells W H).length + 2) (by omega)
  refine ⟨?_, hcorrect.1, ?_⟩
  · intro p
    unfold neighbors
    simp only [List.filterMap_cons, List.filterMap_nil, List.filter_cons,
      List.filter_nil, decide_eq_true_eq]
    simp only [add_zero, ← sub_eq_add_neg]
    split_ifs <;> rfl
  · intro n hn
    unfold compute_route
    obtain ⟨hlen, hh, hgl, hch, hblocked⟩ := hcorrect.2 n hn
    refine ⟨hlen, hh, hgl, hch, ?_, ?_⟩
    · intro x hx hcontra
      have hbf := hblocked (decide_eq_false hstart) x hx
      have hbt : isBlockCell layout x = true := decide_eq_true hcontra
      rw [hbt] at hbf
      cases hbf
    · intro l hchl hhl hgll
      have hw := walk_reach l start goal hchl hhl hgll
      have hmin := hn.2 _ hw
      have hlpos : 0 < l.length := by
        cases l with
        | nil => cases hhl
        | cons a t => simp
      rw [hlen]
      omega

/-- C5 witness: on a 2×1 grid whose only other cell is Blocked, the goal
is unreachable and `compute_route` returns the singleton `[start]`. -/
theorem C5_compute_route_bfs_witness :
    compute_route 2 1
        (fun p => if p = ((1 : ℤ), (0 : ℤ)) then some Cell.block
          else some Cell.road) ((0 : ℤ), (0 : ℤ)) ((1 : ℤ), (0 : ℤ)) =
      [((0 : ℤ), (0 : ℤ))] := by
  have hnr : ¬ Reachable (neighbors 2 1)
      (isBlockCell fun p => if p = ((1 : ℤ), (0 : ℤ)) then some Cell.block
        else some Cell.road) ((0 : ℤ), (0 : ℤ)) ((1 : ℤ), (0 : ℤ)) := by
    rintro ⟨n, hn⟩
    have hstay : ∀ (t : Pos) (m : ℕ),
        Reach (neighbors 2 1)
          (isBlockCell fun p => if p = ((1 : ℤ), (0 : ℤ)) then some Cell.block
            else some Cell.road) ((0 : ℤ), (0 : ℤ)) t m →
        t = ((0 : ℤ), (0 : ℤ)) := by
      intro t m hm
      induction hm with
      | refl => rfl
      | @step p q k hr he ih =>
        exfalso
        have h1 : q ∈ neighbors 2 1 ((0 : ℤ), (0 : ℤ)) := ih ▸ he.1
        have hnb : neighbors 2 1 ((0 : ℤ), (0 : ℤ)) = [((1 : ℤ), (0 : ℤ))] := by
          decide
        rw [hnb, List.mem_singleton] at h1
        subst h1
        have hbl := he.2
        rw [show (isBlockCell fun p =>
            if p = ((1 : ℤ), (0 : ℤ)) then some Cell.block else some Cell.road)
            ((1 : ℤ), (0 : ℤ)) = true by decide] at hbl
        cases hbl
    have h10 := hstay ((1 : ℤ), (0 : ℤ)) n hn
    exact (by decide : ¬((((1 : ℤ), (0 : ℤ)) : Pos) = ((0 : ℤ), (0 : ℤ)))) h10
  exact (C5_compute_route_bfs 2 1
    (fun p => if p = ((1 : ℤ), (0 : ℤ)) then some Cell.block
      else some Cell.road) ((0 : ℤ), (0 : ℤ)) ((1 : ℤ), (0 : ℤ))
    (by decide)).2.1 hnr

/-! ## Ambulance agent (`gui_demo.AmbulanceAgent`) -/

/-- `PREDICTION_HORIZON` (seconds). -/
def PREDICTION_HORIZON : ℚ := 30

/-- `AI_DECISION_LATENCY` (seconds). -/
def AI_DECISION_LATENCY : ℚ := 1 / 4

/-- `Server.predict_eta(path, current_pos)`: sums a per-cell traversal
time over all but the last cell of the path, plus the decision latency and
a random jitter in `[0, 0.5)` (an oracle input). -/
def predict_eta (queues : Pos → ℕ) (path : List Pos) (jitter : ℚ) : ℚ :=
  (path.dropLast.map fun pos =>
    1 / max (1 / 2) (estimated_speed_at queues pos / 12) * 3).sum +
    AI_DECISION_LATENCY + jitter

/-- Whether the signal (if any) at `p` currently shows RED. -/
def signal_is_red (signals : List (Pos × Signal)) (p : Pos) : Bool :=
  match lookupA signals p with
  | some sig => decide (sig.state = Phase.RED)
  | none => false

structure AmbulanceAgent where
  pos : Pos
  start : Pos
  goal : Pos
  path : List Pos
  curr_index : ℕ
  travel_time : ℚ
  blocking_time : ℚ
  speed : ℚ
  severity : ℕ
  completed : Bool
deriving DecidableEq, Repr

/-- `AmbulanceAgent.__init__`: fresh route, all counters zero. -/
def AmbulanceAgent.init (W H : ℕ) (layout : Pos → Option Cell)
    (start goal : Pos) : AmbulanceAgent :=
  { pos := start, start := start, goal := goal
    path := compute_route W H layout start goal
    curr_index := 0, travel_time := 0, blocking_time := 0
    speed := 1, severity := 1, completed := false }

/-- `AmbulanceAgent.step(dt)`.  Oracle inputs: `r1` is the re-plan draw
(re-plan when `r1 < 0.02`), `jitter` the ETA jitter, `r2` the movement
draw (move when `r2 < min(1, local_speed/12)`).  Returns the updated agent, the
queue table (drained at the old position on a successful move) and the
signals (preempted when the lookahead ETA is under the horizon). -/
def AmbulanceAgent.step (W H : ℕ) (layout : Pos → Option Cell)
    (dt r1 jitter r2 : ℚ) (st : AmbulanceAgent) (queues : Pos → ℕ)
    (signals : List (Pos × Signal)) :
    AmbulanceAgent × (Pos → ℕ) × List (Pos × Signal) :=
  if st.completed then (st, queues, signals)
  else if st.pos = st.goal then
    ({ st with completed := true }, queues, signals)
  else
    let path1 :=
      if r1 < 1 / 50 then compute_route W H layout st.pos st.goal
      else st.path
    let signals1 :=
      if st.curr_index < path1.length - 1 then
        let lookahead := (path1.drop st.curr_index).take 3
        if predict_eta queues lookahead jitter < PREDICTION_HORIZON then
          match issue_preemption signals path1 with
          | some pr => pr.1
          | none => signals
        else signals
      else signals
    let next_index := st.curr_index + 1
    if hend : path1.length ≤ next_index then
      ({ st with path := path1, completed := true }, queues, signals1)
    else
      let next_pos := path1.get ⟨next_index, by omega⟩
      if layout next_pos = some Cell.block then
        ({ st with
            path := path1
            blocking_time := st.blocking_time + dt
            travel_time := st.travel_time + dt }, queues, signals1)
      else if signal_is_red signals1 next_pos then
        ({ st with
            path := path1
            blocking_time := st.blocking_time + dt
            travel_time := st.travel_time + dt }, queues, signals1)
      else
        let move_prob := min 1 (estimated_speed_at queues st.pos / 12)
        if r2 < move_prob then
          ({ st with
              path := path1
              pos := next_pos
              curr_index := next_index
              travel_time := st.travel_time + dt },
            (drain_queue queues st.pos 3).1, signals1)
        else
          ({ st with
              path := path1
              blocking_time := st.blocking_time + dt
              travel_time := st.travel_time + dt }, queues, signals1)

/-- C5 counterexample to the claim as stated: when the start cell itself
is Blocked, the returned path contains a Blocked position. -/
theorem C5_counterexample :
    compute_route 2 1
        (fun p => if p = ((0 : ℤ), (0 : ℤ)) then some Cell.block
          else some Cell.road) ((0 : ℤ), (0 : ℤ)) ((1 : ℤ), (0 : ℤ)) =
      [((0 : ℤ), (0 : ℤ)), ((1 : ℤ), (0 : ℤ))] ∧
    (fun p : Pos => if p = ((0 : ℤ), (0 : ℤ)) then some Cell.block
      else some Cell.road) ((0 : ℤ), (0 : ℤ)) = some Cell.block := by
  constructor
  · decide
  · decide

/-- The movement phase of `AmbulanceAgent.step` (the branch taken when
the path extends beyond the next index) leaves `completed` unchanged. -/
theorem step_move_completed (layout : Pos → Option Cell) (dt r2 : ℚ)
    (st : AmbulanceAgent) (queues : Pos → ℕ)
    (signals1 : List (Pos × Signal)) (P : List Pos)
    (hne : st.curr_index + 1 < P.length) :
    (if layout (P.get ⟨st.curr_index + 1, hne⟩) = some Cell.block then
        ({ st with
            path := P
            blocking_time := st.blocking_time + dt
            travel_time := st.travel_time + dt }, queues, signals1)
      else if signal_is_red signals1 (P.get ⟨st.curr_index + 1, hne⟩) then
        ({ st with
            path := P
            blocking_time := st.blocking_time + dt
            travel_time := st.travel_time + dt }, queues, signals1)
      else if r2 < min 1 (estimated_speed_at queues st.pos / 12) then
        ({ st with
            path := P
            pos := P.get ⟨st.curr_index + 1, hne⟩
            curr_index := st.curr_index + 1
            travel_time := st.travel_time + dt },
          (drain_queue queues st.pos 3).1, signals1)
      else
        ({ st with
            path := P
            blocking_time := st.blocking_time + dt
            travel_time := st.travel_time + dt }, queues, signals1) :
      AmbulanceAgent × (Pos → ℕ) × List (Pos × Signal)).1.completed =
      st.completed := by
  split_ifs <;> rfl

/-- The movement phase of `AmbulanceAgent.step` preserves the invariant
`blocking_time ≤ travel_time` for a nonnegative tick: waiting branches add
`dt` to both counters, a successful move adds `dt` to travel time only. -/
theorem step_move_blocking_le (layout : Pos → Option Cell) (dt r2 : ℚ)
    (st : AmbulanceAgent) (queues : Pos → ℕ)
    (signals1 : List (Pos × Signal)) (P : List Pos)
    (hne : st.curr_index + 1 < P.length) (hdt : 0 ≤ dt)
    (hinv : st.blocking_time ≤ st.travel_time) :
    (if layout (P.get ⟨st.curr_index + 1, hne⟩) = some Cell.block then
        ({ st with
            path := P
            blocking_time := st.blocking_time + dt
            travel_time := st.travel_time + dt }, queues, signals1)
      else if signal_is_red signals1 (P.get ⟨st.curr_index + 1, hne⟩) then
        ({ st with
            path := P
            blocking_time := st.blocking_time + dt
            travel_time := st.travel_time + dt }, queues, signals1)
      else if r2 < min 1 (estimated_speed_at queues st.pos / 12) then
        ({ st with
            path := P
            pos := P.get ⟨st.curr_index + 1, hne⟩
            curr_index := st.curr_index + 1
            travel_time := st.travel_time + dt },
          (drain_queue queues st.pos 3).1, signals1)
      else
        ({ st with
            path := P
            blocking_time := st.blocking_time + dt
            travel_time := st.travel_time + dt }, queues, signals1) :
      AmbulanceAgent × (Pos → ℕ) × List (Pos × Signal)).1.blocking_time ≤
      (if layout (P.get ⟨st.curr_index + 1, hne⟩) = some Cell.block then
        ({ st with
            path := P
            blocking_time := st.blocking_time + dt
            travel_time := st.travel_time + dt }, queues, signals1)
      else if signal_is_red signals1 (P.get ⟨st.curr_index + 1, hne⟩) then
        ({ st with
            path := P
            blocking_time := st.blocking_time + dt
            travel_time := st.travel_time + dt }, queues, signals1)
      else if r2 < min 1 (estimated_speed_at queues st.pos / 12) then
        ({ st with
            path := P
            pos := P.get ⟨st.curr_index + 1, hne⟩
            curr_index := st.curr_index + 1
            travel_time := st.travel_time + dt },
          (drain_queue queues st.pos 3).1, signals1)
      else
        ({ st with
            path := P
            blocking_time := st.blocking_time + dt
            travel_time := st.travel_time + dt }, queues, signals1) :
      AmbulanceAgent × (Pos → ℕ) × List (Pos × Signal)).1.travel_time := by
  split_ifs <;> dsimp only <;> linarith

/-- C1 (amended): once `completed` is true, `step` changes nothing; for a
non-completed agent, one `step` sets `completed` exactly when the position
already equals the goal or the (possibly re-planned) path has no cell
beyond the next index — so completion is not equivalent to reaching the
goal. -/
theorem C1_agent_completion (W H : ℕ) (layout : Pos → Option Cell)
    (dt r1 jitter r2 : ℚ) (st : AmbulanceAgent) (queues : Pos → ℕ)
    (signals : List (Pos × Signal)) :
    (st.completed = true →
      AmbulanceAgent.step W H layout dt r1 jitter r2 st queues signals =
        (st, queues, signals)) ∧
    (st.completed = false →
      ((AmbulanceAgent.step W H layout dt r1 jitter r2 st queues
          signals).1.completed = true ↔
        (st.pos = st.goal ∨
          (if r1 < 1 / 50 then compute_route W H layout st.pos st.goal
            else st.path).length ≤ st.curr_index + 1))) := by
  constructor
  · intro h
    unfold AmbulanceAgent.step
    rw [if_pos h]
  · intro h
    unfold AmbulanceAgent.step
    rw [if_neg (by simp [h] : ¬ (st.completed = true))]
    by_cases hpg : st.pos = st.goal
    · rw [if_pos hpg]
      simp [hpg]
    · rw [if_neg hpg]
      dsimp only
      simp only [hpg, false_or]
      by_cases hlen :
          (if r1 < 1 / 50 then compute_route W H layout st.pos st.goal
            else st.path).length ≤ st.curr_index + 1
      · rw [dif_pos hlen]
        exact iff_of_true rfl hlen
      · rw [dif_neg hlen]
        refine iff_of_false ?_ hlen
        intro hcontra
        rw [step_move_completed layout dt r2 st queues _
          (if r1 < 1 / 50 then compute_route W H layout st.pos st.goal
            else st.path) (by omega)] at hcontra
        rw [h] at hcontra
        exact Bool.false_ne_true hcontra

/-- The 2×1 layout used in the C1 instance: a road at the origin, a
Blocked cell at the goal (1, 0), making the goal unreachable. -/
def layoutC1 : Pos → Option Cell :=
  fun p => if p = ((1 : ℤ), (0 : ℤ)) then some Cell.block else some Cell.road

/-- The agent for the C1 instance, routed from (0, 0) to the unreachable
goal (1, 0); its route is the singleton fallback path. -/
def agentC1 : AmbulanceAgent :=
  AmbulanceAgent.init 2 1 layoutC1 ((0 : ℤ), (0 : ℤ)) ((1 : ℤ), (0 : ℤ))

/-- One step of the C1 instance, with oracle draws that suppress the
re-plan (`r1 = 1`) on a unit tick. -/
def stepC1 : AmbulanceAgent × (Pos → ℕ) × List (Pos × Signal) :=
  AmbulanceAgent.step 2 1 layoutC1 1 1 0 0 agentC1 (fun _ => 0) []

/-- C1 witness: on the concrete unreachable-goal instance the amended
characterisation applies and yields `completed = true` after one step. -/
theorem C1_agent_completion_witness : stepC1.1.completed = true := by
  refine ((C1_agent_completion 2 1 layoutC1 1 1 0 0 agentC1 (fun _ => 0)
      []).2 (by decide)).mpr (Or.inr ?_)
  rw [if_neg (show ¬ ((1 : ℚ) < 1 / 50) by norm_num)]
  decide

/-- C1 counterexample to the claim as stated: with an unreachable goal the
route is the singleton `[start]`, and the very first step marks the agent
`completed` while its position still differs from the goal and
`curr_index` is still 0 — it does not remain permanently blocked. -/
theorem C1_counterexample :
    agentC1.path = [((0 : ℤ), (0 : ℤ))] ∧
    agentC1.pos ≠ agentC1.goal ∧
    stepC1.1.completed = true ∧
    stepC1.1.pos ≠ stepC1.1.goal ∧
    stepC1.1.curr_index = 0 := by
  have hstep : stepC1.1 = { agentC1 with completed := true } := by
    have hpath :
        (if (1 : ℚ) < 1 / 50 then
            compute_route 2 1 layoutC1 agentC1.pos agentC1.goal
          else agentC1.path) = agentC1.path :=
      if_neg (by norm_num)
    have hcond :
        (if (1 : ℚ) < 1 / 50 then
            compute_route 2 1 layoutC1 agentC1.pos agentC1.goal
          else agentC1.path).length ≤ agentC1.curr_index + 1 := by
      rw [hpath]
      decide
    unfold stepC1 AmbulanceAgent.step
    rw [if_neg (show ¬ (agentC1.completed = true) by decide)]
    rw [if_neg (show ¬ (agentC1.pos = agentC1.goal) by decide)]
    dsimp only
    rw [dif_pos hcond]
    dsimp only
    rw [hpath]
  refine ⟨by decide, by decide, ?_, ?_, ?_⟩
  · rw [hstep]
  · rw [hstep]
    decide
  · rw [hstep]
    decide

/-- C10: the agent's blocking time never exceeds its travel time — both
counters start at 0, and along every branch of `step` with a nonnegative
tick the inequality `blocking_time ≤ travel_time` is preserved. -/
theorem C10_blocking_le_travel (W H : ℕ) (layout : Pos → Option Cell)
    (s g : Pos) (dt r1 jitter r2 : ℚ) (st : AmbulanceAgent)
    (queues : Pos → ℕ) (signals : List (Pos × Signal))
    (hdt : 0 ≤ dt) (hinv : st.blocking_time ≤ st.travel_time) :
    (AmbulanceAgent.init W H layout s g).blocking_time = 0 ∧
    (AmbulanceAgent.init W H layout s g).travel_time = 0 ∧
    (AmbulanceAgent.step W H layout dt r1 jitter r2 st queues
        signals).1.blocking_time ≤
      (AmbulanceAgent.step W H layout dt r1 jitter r2 st queues
        signals).1.travel_time := by
  refine ⟨rfl, rfl, ?_⟩
  unfold AmbulanceAgent.step
  by_cases h1 : st.completed = true
  · rw [if_pos h1]
    exact hinv
  · rw [if_neg h1]
    by_cases h2 : st.pos = st.goal
    · rw [if_pos h2]
      exact hinv
    · rw [if_neg h2]
      dsimp only
      by_cases hlen :
          (if r1 < 1 / 50 then compute_route W H layout st.pos st.goal
            else st.path).length ≤ st.curr_index + 1
      · rw [dif_pos hlen]
        exact hinv
      · rw [dif_neg hlen]
        exact step_move_blocking_le layout dt r2 st queues _
          (if r1 < 1 / 50 then compute_route W H layout st.pos st.goal
            else st.path) (by omega) hdt hinv

/-- A concrete completed agent state with `blocking_time = 2` and
`travel_time = 5`, used to instantiate the C10 invariant. -/
def agentC10 : AmbulanceAgent :=
  { pos := ((0 : ℤ), (0 : ℤ)), start := ((0 : ℤ), (0 : ℤ))
    goal := ((1 : ℤ), (0 : ℤ))
    path := [((0 : ℤ), (0 : ℤ)), ((1 : ℤ), (0 : ℤ))], curr_index := 0
    travel_time := 5, blocking_time := 2, speed := 1, severity := 1
    completed := true }

/-- C10 witness: a concrete agent with `blocking_time = 2 ≤ 5 =
travel_time` and a unit tick keeps the invariant after `step`. -/
theorem C10_blocking_le_travel_witness :
    (0 : ℚ) ≤ 1 ∧ agentC10.blocking_time ≤ agentC10.travel_time ∧
    (AmbulanceAgent.step 2 1 (fun _ => some Cell.road) 1 1 0 0 agentC10
        (fun _ => 0) []).1.blocking_time ≤
      (AmbulanceAgent.step 2 1 (fun _ => some Cell.road) 1 1 0 0 agentC10
        (fun _ => 0) []).1.travel_time :=
  ⟨by decide, by decide,
    (C10_blocking_le_travel 2 1 (fun _ => some Cell.road) ((0 : ℤ), (0 : ℤ))
      ((1 : ℤ), (0 : ℤ)) 1 1 0 0 agentC10 (fun _ => 0) [] (by decide)
      (by decide)).2.2⟩

end MTERBS
